import Mathlib

/-!
# Verification of the superpose Dimension Build Engine (cretz/superpose)

Shallow embedding of the core of the repository:

* the Patch Engine (`src/transform.go`: `Range.Contains`, `Range.Overlaps`,
  `ApplyPatch`, `ApplyPatches`),
* the action-ID derivation (`src/superpose.go`: `dimPkgActionID`),
* the dimension-compile skip logic (`src/compile.go`: `compileDimensions`),
* the bridge signature check (`src/bridge.go`: `buildInitStatements`),
* the `//dim:<in>` bool-var rewriter (`src/compile.go`: `transformInBoolVars`),
* the import-manifest rewriter (`importCfg` in the repo: `removePkgFile`,
  `addPkgFile`, `includePkg`, `updateDimPkgRefs`) and the link-phase walk
  (`src/superpose.go`: `onLink`).

Modelling conventions:

* Go byte slices (`[]byte`) and Go strings used as byte buffers are `List Nat`
  (one `Nat` per byte).  Lean `String` is used only for identifiers that are
  merely compared for equality (file names, dimension names, error messages).
* `go/token.Pos` is a `Nat`; `0` is `token.NoPos`, so `Pos.IsValid()` is
  `≠ 0` (in the Go sources positions produced by a `FileSet` are always
  positive; the `int` type's negative values never occur).
* A `go/token.FileSet` is a list of `File` records `(name, base, size)`;
  `FileSet.File(p)` finds the file with `base ≤ p ≤ base + size` and
  `FileSet.Position(p).Offset` is `p - base`, as in Go.
* The filesystem (`os.ReadFile`) is a read-only parameter
  `disk : String → Option (List Nat)`; `none` models a read error.
  `ApplyPatch`/`ApplyPatches` have no operation that writes to `disk`,
  mirroring that the Go functions only ever read files.
* Go's `map[string][]byte` of patched files is an association list updated in
  place; a missing key reads as the zero value `[]` just as in Go.
* Go slicing `b[s:e]` is modelled as `(b.take e).drop s`.  When
  `s ≤ e ≤ b.length` (the case in every valid run) the two agree; where Go
  would panic on an out-of-range slice, the model clamps.
* `sort.Slice(patches, func(i, j) { Pos i > Pos j })` is an unstable sort
  descending by start position; it is modelled by `List.insertionSort` with
  relation `Pos j ≤ Pos i`, which agrees with every comparison sort up to the
  ordering of patches with equal start positions.
* Go's `text/template` is an external collaborator; it is modelled for exactly
  the template shape the engine's patches use (`{{.name}}` substitution of a
  capture, every other byte literal; a missing key renders as the zero value
  `""`, as executing a `map[string]string` does).
-/

namespace Superpose

/-- `go/token.Pos` validity: `p != token.NoPos` (`NoPos = 0`). -/
def posIsValid (p : Nat) : Bool := p ≠ 0

/-- `Range` from `src/transform.go`: inclusive start `Pos`, exclusive `End`;
`End = 0`/unset means a single position (an insertion point).
(The Go field `Range.Pos`/`Range.End` are `Pos`/`End` here; the struct field
named like its type is not expressible in Lean, so the patch field holding a
`Range` is called `range`.) -/
structure Range where
  Pos : Nat
  End : Nat
  deriving DecidableEq, Repr

/-- `Range.Contains` from `src/transform.go`:
if there is no end, only the exact start matches; otherwise
`r.Pos <= p && r.End > p`. -/
def Range.Contains (r : Range) (p : Nat) : Bool :=
  if !posIsValid r.End then p == r.Pos
  else r.Pos ≤ p && r.End > p

/-- `Range.Overlaps` from `src/transform.go`: either range's endpoints inside
the other. -/
def Range.Overlaps (r other : Range) : Bool :=
  r.Contains other.Pos ||
  (other.End > other.Pos && r.Contains (other.End - 1)) ||
  other.Contains r.Pos ||
  (r.End > r.Pos && other.Contains (r.End - 1))

/-- One file of a `go/token.FileSet`: name, base position and size.
Positions `base ≤ p ≤ base + size` belong to this file, offset `p - base`. -/
structure File where
  name : String
  base : Nat
  size : Nat
  deriving DecidableEq, Repr

/-- `FileSet.File(p)`: the file containing position `p` (`nil`/`none` for
`NoPos` or a position in no file). -/
def findFile (fset : List File) (p : Nat) : Option File :=
  if p == 0 then none
  else fset.find? (fun f => f.base ≤ p && p ≤ f.base + f.size)

/-- `FileSet.Position(p)` restricted to the fields the engine reads:
file name and byte offset; `none` when the position is invalid
(`Position.IsValid()` false). -/
def fsetPosition (fset : List File) (p : Nat) : Option (String × Nat) :=
  match findFile fset p with
  | some f => some (f.name, p - f.base)
  | none => none

/-- `FileSet.Position(p).Offset`: `0` when the position resolves to no file
(the `Position` zero value). -/
def positionOffset (fset : List File) (p : Nat) : Nat :=
  match fsetPosition fset p with
  | some (_, off) => off
  | none => 0

/-- `Patch` from `src/transform.go`.  `range` is the range to patch (insert
when `End` is unset), `Captures` the named source ranges available to a
template `Str`, `Str` the replacement bytes. -/
structure Patch where
  range : Range
  Captures : List (List Nat × Range)
  Str : List Nat
  deriving DecidableEq, Repr

/-- Reading Go's `files[name]`: a missing key is the zero value `[]`. -/
def getFileBytes (files : List (String × List Nat)) (name : String) : List Nat :=
  match files.find? (fun kv => kv.1 == name) with
  | some kv => kv.2
  | none => []

/-- Writing Go's `files[name] = b`. -/
def setFileBytes (files : List (String × List Nat)) (name : String) (b : List Nat) :
    List (String × List Nat) :=
  match files with
  | [] => [(name, b)]
  | kv :: rest =>
    if kv.1 == name then (name, b) :: rest else kv :: setFileBytes rest name b

/-- `strings.Contains(str, "\x7b\x7b")` on byte buffers
(`123` is the byte of an opening brace). -/
def containsTemplateMarker : List Nat → Bool
  | a :: b :: rest => (a == 123 && b == 123) || containsTemplateMarker (b :: rest)
  | _ => false

/-- Lookup in the capture map; a missing key is the zero value `[]`
(what `text/template` renders when indexing a `map[string]string` at a missing
key). -/
def lookupCapture (caps : List (List Nat × List Nat)) (name : List Nat) : List Nat :=
  match caps.find? (fun kv => kv.1 == name) with
  | some kv => kv.2
  | none => []

/-- Models the external `text/template` execution for the template shape the
engine's patches use: each occurrence of an opening-brace pair, a dot and a
name up to the closing braces (`\x7b\x7b.name\x7d\x7d`) is replaced by the
named capture's bytes; every other byte is literal.  `123`/`125` are the brace
bytes, `46` the dot.  The `fuel` argument only makes the recursion structural
(each step consumes at least one input byte, so `fuel = input length` never
runs out). -/
def renderTemplateGo (caps : List (List Nat × List Nat)) : Nat → List Nat → List Nat
  | 0, _ => []
  | _ + 1, [] => []
  | fuel + 1, 123 :: 123 :: 46 :: rest =>
    let name := rest.takeWhile (fun b => b ≠ 125)
    lookupCapture caps name ++
      renderTemplateGo caps fuel ((rest.dropWhile (fun b => b ≠ 125)).drop 2)
  | fuel + 1, b :: rest => b :: renderTemplateGo caps fuel rest

/-- Template rendering at sufficient fuel. -/
def renderTemplate (caps : List (List Nat × List Nat)) (l : List Nat) : List Nat :=
  renderTemplateGo caps l.length l

/-- The capture-map construction from `ApplyPatch` (`src/transform.go`):
for each named capture resolve start and end, fail if either is invalid or in
a different file, and slice the *current* buffer `fileBytes` at the original
offsets. -/
def buildCaptureMap (fset : List File) (fileName : String) (fileBytes : List Nat) :
    List (List Nat × Range) → Except String (List (List Nat × List Nat))
  | [] => .ok []
  | (k, capture) :: rest =>
    match fsetPosition fset capture.Pos, fsetPosition fset capture.End with
    | some (sf, so), some (ef, eo) =>
      if sf ≠ fileName || ef ≠ fileName then
        .error "start or end invalid or in wrong file"
      else
        match buildCaptureMap fset fileName fileBytes rest with
        | .ok caps => .ok ((k, (fileBytes.take eo).drop so) :: caps)
        | .error e => .error e
    | _, _ => .error "start or end invalid or in wrong file"

/-- `ApplyPatch` from `src/transform.go`: find the patch's file, load its
bytes from the map (reading from disk when the map holds nothing for it),
render the template against captures sliced from those bytes, and splice the
result into the buffer at the patch's offsets. -/
def ApplyPatch (fset : List File) (disk : String → Option (List Nat)) (patch : Patch)
    (files : List (String × List Nat)) : Except String (List (String × List Nat)) :=
  match findFile fset patch.range.Pos with
  | none => .error "cannot find file for patch"
  | some file =>
    let loaded : Except String (List Nat × List (String × List Nat)) :=
      let fileBytes := getFileBytes files file.name
      if fileBytes.length == 0 then
        match disk file.name with
        | none => .error ("failed reading file " ++ file.name)
        | some b => .ok (b, setFileBytes files file.name b)
      else .ok (fileBytes, files)
    match loaded with
    | .error e => .error e
    | .ok (fileBytes, files) =>
      let rendered : Except String (List Nat) :=
        if containsTemplateMarker patch.Str then
          match buildCaptureMap fset file.name fileBytes patch.Captures with
          | .error e => .error e
          | .ok caps => .ok (renderTemplate caps patch.Str)
        else .ok patch.Str
      match rendered with
      | .error e => .error e
      | .ok str =>
        let start := positionOffset fset patch.range.Pos
        let end_ := if posIsValid patch.range.End
          then positionOffset fset patch.range.End else start
        .ok (setFileBytes files file.name
          (fileBytes.take start ++ str ++ fileBytes.drop end_))

/-- The loop body of `ApplyPatches`: validate each patch's range, check it
does not overlap the previously applied (next-higher-position) patch, then
apply it. -/
def applyPatchesLoop (fset : List File) (disk : String → Option (List Nat)) :
    Option Patch → List Patch → List (String × List Nat) →
    Except String (List (String × List Nat))
  | _, [], files => .ok files
  | prev, patch :: rest, files =>
    if !posIsValid patch.range.Pos then .error "patch missing start pos"
    else if posIsValid patch.range.End && patch.range.End < patch.range.Pos then
      .error "patch end before start"
    else if (match prev with
             | some p => p.range.Overlaps patch.range
             | none => false) then .error "patches overlap"
    else
      match ApplyPatch fset disk patch files with
      | .error e => .error e
      | .ok files => applyPatchesLoop fset disk (some patch) rest files

/-- The comparison of `sort.Slice` in `ApplyPatches`
(descending by `Range.Pos`). -/
def patchLE (a b : Patch) : Prop := b.range.Pos ≤ a.range.Pos

instance : DecidableRel patchLE := fun _ _ => Nat.decLe _ _

/-- `ApplyPatches` from `src/transform.go`: sort the patches in reverse
position order, then walk them validating and applying each; the result is the
map of only affected files and their final contents. -/
def ApplyPatches (fset : List File) (disk : String → Option (List Nat))
    (patches : List Patch) : Except String (List (String × List Nat)) :=
  applyPatchesLoop fset disk none (patches.insertionSort patchLE) []

/-- Byte view of an ASCII string, for concrete examples. -/
def bytes (s : String) : List Nat := s.data.map Char.toNat

deriving instance DecidableEq for Except

/-- A one-file fileset used by the concrete examples: `f.go` holds positions
`1..11` (ten bytes). -/
def exampleFset : List File := [⟨"f.go", 1, 10⟩]

/-- The disk for the concrete examples: `f.go` holds the ten bytes
`0123456789`. -/
def exampleDisk : String → Option (List Nat) :=
  fun n => if n == "f.go" then some (bytes "0123456789") else none

/-! ### Properties of `Range.Contains` and `Range.Overlaps` -/

theorem contains_iff (r : Range) (p : Nat) :
    r.Contains p = true ↔ (if r.End = 0 then p = r.Pos else r.Pos ≤ p ∧ p < r.End) := by
  simp only [Range.Contains, posIsValid]
  split_ifs with h <;> simp_all

theorem overlaps_iff (r o : Range) :
    r.Overlaps o = true ↔
      (r.Contains o.Pos = true ∨ (o.Pos < o.End ∧ r.Contains (o.End - 1) = true) ∨
        o.Contains r.Pos = true ∨ (r.Pos < r.End ∧ o.Contains (r.End - 1) = true)) := by
  simp only [Range.Overlaps, Bool.or_eq_true, Bool.and_eq_true, decide_eq_true_eq,
    gt_iff_lt]
  tauto

theorem overlaps_comm (r o : Range) : r.Overlaps o = o.Overlaps r := by
  rcases h1 : r.Overlaps o <;> rcases h2 : o.Overlaps r <;> try rfl
  · rw [overlaps_iff] at h2
    have : r.Overlaps o = true := by rw [overlaps_iff]; tauto
    simp [h1] at this
  · rw [overlaps_iff] at h1
    have : o.Overlaps r = true := by rw [overlaps_iff]; tauto
    simp [h2] at this

/-- The key geometric fact behind `ApplyPatches`' adjacent-only overlap check:
for patches already in descending start-position order, non-overlap of
adjacent patches propagates to all pairs. -/
theorem not_overlaps_trans {a b c : Range} (h1 : b.Pos ≤ a.Pos) (h2 : c.Pos ≤ b.Pos)
    (hab : a.Overlaps b = false) (hbc : b.Overlaps c = false) :
    a.Overlaps c = false := by
  rw [← Bool.not_eq_true] at hab hbc ⊢
  rw [overlaps_iff] at *
  simp only [contains_iff] at *
  by_cases ha : a.End = 0 <;> by_cases hb : b.End = 0 <;> by_cases hc : c.End = 0 <;>
    simp_all <;> omega

/-- The ordering used by `ApplyPatches`' sort plus the overlap check between
adjacent sorted patches. -/
def patchSep (a b : Patch) : Prop :=
  b.range.Pos ≤ a.range.Pos ∧ a.range.Overlaps b.range = false

instance : IsTrans Patch patchSep :=
  ⟨fun _ _ _ h1 h2 => ⟨h2.1.trans h1.1, not_overlaps_trans h1.1 h2.1 h1.2 h2.2⟩⟩

instance : IsTotal Patch patchLE := ⟨fun a b => Nat.le_total b.range.Pos a.range.Pos⟩

instance : IsTrans Patch patchLE := ⟨fun _ _ _ h1 h2 => Nat.le_trans h2 h1⟩

/-- Two adjacency chains combine into a chain of the conjunction. -/
theorem chain'_and {α : Type} {R S : α → α → Prop} :
    ∀ {l : List α}, l.Chain' R → l.Chain' S → l.Chain' (fun a b => R a b ∧ S a b) := by
  intro l
  induction l with
  | nil => intro _ _; trivial
  | cons a t ih =>
    cases t with
    | nil => intro _ _; simp
    | cons b t' =>
      intro h1 h2
      rw [List.chain'_cons] at h1 h2 ⊢
      exact ⟨⟨h1.1, h2.1⟩, ih h1.2 h2.2⟩

/-! ### What a successful `ApplyPatches` run guarantees -/

/-- A successful loop run validated every patch's range. -/
theorem applyPatchesLoop_ok_valid (fset : List File) (disk : String → Option (List Nat)) :
    ∀ (l : List Patch) (prev : Option Patch) (files m),
      applyPatchesLoop fset disk prev l files = .ok m →
      ∀ p ∈ l, p.range.Pos ≠ 0 ∧ ¬(p.range.End ≠ 0 ∧ p.range.End < p.range.Pos) := by
  intro l
  induction l with
  | nil => intro prev files m _ p hp; simp at hp
  | cons patch rest ih =>
    intro prev files m h p hp
    simp only [applyPatchesLoop] at h
    split_ifs at h with h1 h2 h3
    split at h
    · exact Except.noConfusion h
    · rcases List.mem_cons.mp hp with hp | hp
      · subst hp
        simp only [posIsValid, Bool.not_eq_eq_eq_not, Bool.not_true,
          decide_eq_false_iff_not, Decidable.not_not] at h1
        constructor
        · simpa using h1
        · intro hcon
          exact h2 (by simp [posIsValid, hcon.1, hcon.2])
      · exact ih (some patch) _ m h p hp

/-- A successful loop run checked every adjacent pair for overlap, including
the previously applied patch against the head. -/
theorem applyPatchesLoop_ok_chain (fset : List File) (disk : String → Option (List Nat)) :
    ∀ (l : List Patch) (prev : Option Patch) (files m),
      applyPatchesLoop fset disk prev l files = .ok m →
      (l.Chain' (fun x y => x.range.Overlaps y.range = false) ∧
        ∀ q, prev = some q →
          List.Chain (fun x y => x.range.Overlaps y.range = false) q l) := by
  intro l
  induction l with
  | nil =>
    intro prev files m _
    exact ⟨trivial, fun _ _ => List.Chain.nil⟩
  | cons patch rest ih =>
    intro prev files m h
    simp only [applyPatchesLoop] at h
    split_ifs at h with h1 h2 h3
    split at h
    · exact Except.noConfusion h
    · next files' heq =>
        have hrec := ih (some patch) files' m h
        have hchain : List.Chain (fun x y => x.range.Overlaps y.range = false) patch rest :=
          hrec.2 patch rfl
        refine ⟨hchain, fun q hq => ?_⟩
        subst hq
        have hqp : q.range.Overlaps patch.range = false := by
          rcases hov : q.range.Overlaps patch.range with _ | _
          · rfl
          · exact absurd (by simp [hov]) h3
        exact List.Chain.cons hqp hchain

end Superpose

namespace Superpose

/-- Two pairwise facts combine pointwise. -/
theorem pairwise_and {α : Type} {R S : α → α → Prop} :
    ∀ {l : List α}, l.Pairwise R → l.Pairwise S → l.Pairwise (fun a b => R a b ∧ S a b) := by
  intro l
  induction l with
  | nil => intro _ _; exact List.Pairwise.nil
  | cons a t ih =>
    intro h1 h2
    rw [List.pairwise_cons] at *
    exact ⟨fun b hb => ⟨h1.1 b hb, h2.1 b hb⟩, ih h1.2 h2.2⟩

/-- Strict descending order by start position (reflexive closure), the order
in which patches with pairwise-distinct positions come out of the sort. -/
def patchLT (a b : Patch) : Prop := b.range.Pos < a.range.Pos ∨ a = b

instance : IsAntisymm Patch patchLT :=
  ⟨fun a b h1 h2 => by
    rcases h1 with h1 | h1
    · rcases h2 with h2 | h2
      · exact absurd h1 (Nat.lt_asymm h2)
      · exact h2.symm
    · exact h1⟩

/-- **C2.** Every patch set containing an overlapping pair (per
`Range.Overlaps`), or a patch with an invalid start position, or a valid end
before its start, makes `ApplyPatches` return an error, so no file-contents
map is produced.  (`ApplyPatches` and `ApplyPatch` take the filesystem as a
read-only function and have no write operation, mirroring that the Go code
only ever calls `os.ReadFile`; hence no file on disk is modified.) -/
theorem applyPatches_error_on_bad_set (fset : List File)
    (disk : String → Option (List Nat)) (patches : List Patch)
    (hbad : (∃ p ∈ patches, p.range.Pos = 0 ∨ (p.range.End ≠ 0 ∧ p.range.End < p.range.Pos)) ∨
      ¬ patches.Pairwise (fun a b => a.range.Overlaps b.range = false)) :
    ∃ e, ApplyPatches fset disk patches = .error e := by
  cases hres : ApplyPatches fset disk patches with
  | error e => exact ⟨e, rfl⟩
  | ok m =>
    exfalso
    unfold ApplyPatches at hres
    have hvalid := applyPatchesLoop_ok_valid fset disk
      (patches.insertionSort patchLE) none [] m hres
    have hchain := (applyPatchesLoop_ok_chain fset disk
      (patches.insertionSort patchLE) none [] m hres).1
    have hsorted : (patches.insertionSort patchLE).Sorted patchLE :=
      List.sorted_insertionSort patchLE patches
    have hperm : (patches.insertionSort patchLE).Perm patches :=
      List.perm_insertionSort patchLE patches
    have hsep : (patches.insertionSort patchLE).Chain' patchSep :=
      (chain'_and hsorted.chain' hchain).imp (fun _ _ h => ⟨h.1, h.2⟩)
    have hpairSep := List.chain'_iff_pairwise.mp hsep
    have hpairNov : (patches.insertionSort patchLE).Pairwise
        (fun a b => a.range.Overlaps b.range = false) :=
      hpairSep.imp (fun h => h.2)
    have hpairInput : patches.Pairwise (fun a b => a.range.Overlaps b.range = false) :=
      (hperm.pairwise_iff (fun {a b} hab => by rwa [overlaps_comm])).mp hpairNov
    rcases hbad with ⟨p, hmem, hbadp⟩ | hnp
    · have hmem' : p ∈ patches.insertionSort patchLE := hperm.mem_iff.mpr hmem
      have hv := hvalid p hmem'
      rcases hbadp with hbadp | hbadp
      · exact hv.1 hbadp
      · exact hv.2 hbadp
    · exact hnp hpairInput

/-- Witness for `applyPatches_error_on_bad_set`: two overlapping replacements
are rejected. -/
theorem applyPatches_error_on_bad_set_witness :
    ∃ e, ApplyPatches exampleFset exampleDisk
      [⟨⟨4, 8⟩, [], bytes "A"⟩, ⟨⟨6, 9⟩, [], bytes "B"⟩] = .error e :=
  applyPatches_error_on_bad_set exampleFset exampleDisk
    [⟨⟨4, 8⟩, [], bytes "A"⟩, ⟨⟨6, 9⟩, [], bytes "B"⟩] (by decide)

/-- **C1 (amended).** For patch sets whose ranges are pairwise non-overlapping
and valid *and whose start positions are pairwise distinct*, `ApplyPatches`
gives the same result for every order of the input slice: with distinct keys
the descending sort has a unique result, so the whole run is a function of the
patch multiset. -/
theorem applyPatches_order_independent (fset : List File)
    (disk : String → Option (List Nat)) (l₁ l₂ : List Patch)
    (hperm : l₁.Perm l₂)
    (_hvalid : ∀ p ∈ l₁, p.range.Pos ≠ 0 ∧ ¬(p.range.End ≠ 0 ∧ p.range.End < p.range.Pos))
    (_hnov : l₁.Pairwise (fun a b => a.range.Overlaps b.range = false))
    (hdist : l₁.Pairwise (fun a b => a.range.Pos ≠ b.range.Pos)) :
    ApplyPatches fset disk l₁ = ApplyPatches fset disk l₂ := by
  have hdistSymm : ∀ {a b : Patch}, a.range.Pos ≠ b.range.Pos → b.range.Pos ≠ a.range.Pos :=
    fun h => h.symm
  have sortedLT : ∀ (l : List Patch), l.Pairwise (fun a b => a.range.Pos ≠ b.range.Pos) →
      (l.insertionSort patchLE).Sorted patchLT := by
    intro l hd
    have hLE : (l.insertionSort patchLE).Pairwise patchLE :=
      List.sorted_insertionSort patchLE l
    have hne : (l.insertionSort patchLE).Pairwise
        (fun a b => a.range.Pos ≠ b.range.Pos) :=
      ((List.perm_insertionSort patchLE l).pairwise_iff hdistSymm).mpr hd
    exact (pairwise_and hLE hne).imp
      (fun h => Or.inl (Nat.lt_of_le_of_ne h.1 (fun he => h.2 he.symm)))
  have hd₂ : l₂.Pairwise (fun a b => a.range.Pos ≠ b.range.Pos) :=
    (hperm.pairwise_iff hdistSymm).mp hdist
  have hsorteq : l₁.insertionSort patchLE = l₂.insertionSort patchLE :=
    List.eq_of_perm_of_sorted
      ((List.perm_insertionSort patchLE l₁).trans
        (hperm.trans (List.perm_insertionSort patchLE l₂).symm))
      (sortedLT l₁ hdist) (sortedLT l₂ hd₂)
  unfold ApplyPatches
  rw [hsorteq]

/-- Witness for `applyPatches_order_independent`: two valid, non-overlapping
patches at distinct positions give the same result in either order. -/
theorem applyPatches_order_independent_witness :
    ApplyPatches exampleFset exampleDisk
      [⟨⟨2, 3⟩, [], bytes "A"⟩, ⟨⟨5, 6⟩, [], bytes "B"⟩] =
    ApplyPatches exampleFset exampleDisk
      [⟨⟨5, 6⟩, [], bytes "B"⟩, ⟨⟨2, 3⟩, [], bytes "A"⟩] :=
  applyPatches_order_independent exampleFset exampleDisk _ _
    (by decide) (by decide) (by decide) (by decide)

/-- **C1 (counterexample).** Two zero-width replacement patches at the same
position are pairwise non-overlapping per `Range.Overlaps` and valid, yet
`ApplyPatches` gives different file contents for the two orders of the input
slice, refuting order-independence for all non-overlapping patch sets. -/
theorem applyPatches_not_order_independent :
    ([⟨⟨4, 4⟩, [], bytes "A"⟩, ⟨⟨4, 4⟩, [], bytes "B"⟩] : List Patch).Perm
      [⟨⟨4, 4⟩, [], bytes "B"⟩, ⟨⟨4, 4⟩, [], bytes "A"⟩] ∧
    ([⟨⟨4, 4⟩, [], bytes "A"⟩, ⟨⟨4, 4⟩, [], bytes "B"⟩] : List Patch).Pairwise
      (fun a b => a.range.Overlaps b.range = false) ∧
    (∀ p ∈ ([⟨⟨4, 4⟩, [], bytes "A"⟩, ⟨⟨4, 4⟩, [], bytes "B"⟩] : List Patch),
      p.range.Pos ≠ 0 ∧ ¬(p.range.End ≠ 0 ∧ p.range.End < p.range.Pos)) ∧
    ApplyPatches exampleFset exampleDisk
        [⟨⟨4, 4⟩, [], bytes "A"⟩, ⟨⟨4, 4⟩, [], bytes "B"⟩] ≠
      ApplyPatches exampleFset exampleDisk
        [⟨⟨4, 4⟩, [], bytes "B"⟩, ⟨⟨4, 4⟩, [], bytes "A"⟩] := by
  refine ⟨by decide, by decide, by decide, by decide⟩

end Superpose

namespace Superpose

/-- What a successful `FileSet.File` lookup guarantees. -/
theorem findFile_spec {fset : List File} {p : Nat} {f : File}
    (h : findFile fset p = some f) :
    p ≠ 0 ∧ f.base ≤ p ∧ p ≤ f.base + f.size := by
  unfold findFile at h
  split_ifs at h with h0
  have hmem := List.find?_some h
  simp only [Bool.and_eq_true, decide_eq_true_eq] at hmem
  refine ⟨?_, hmem.1, hmem.2⟩
  simpa using h0

/-- The offset of a position that resolves to a file. -/
theorem positionOffset_eq {fset : List File} {p : Nat} {f : File}
    (h : findFile fset p = some f) : positionOffset fset p = p - f.base := by
  simp [positionOffset, fsetPosition, h]

/-- Evaluation of `ApplyPatch` when the patch's file is not yet in the files
map: the buffer is read from disk, so captures and splice offsets all refer to
the original on-disk bytes. -/
theorem applyPatch_fresh {fset : List File} {disk : String → Option (List Nat)}
    {p : Patch} {files : List (String × List Nat)} {f : File} {orig : List Nat}
    (hfind : findFile fset p.range.Pos = some f)
    (hget0 : getFileBytes files f.name = [])
    (hdisk : disk f.name = some orig) :
    ApplyPatch fset disk p files =
      match (if containsTemplateMarker p.Str then
              match buildCaptureMap fset f.name orig p.Captures with
              | Except.error e => (Except.error e : Except String (List Nat))
              | Except.ok caps => Except.ok (renderTemplate caps p.Str)
            else Except.ok p.Str) with
      | Except.error e => Except.error e
      | Except.ok str => Except.ok (setFileBytes (setFileBytes files f.name orig) f.name
          (orig.take (positionOffset fset p.range.Pos) ++ str ++
           orig.drop (if posIsValid p.range.End then positionOffset fset p.range.End
                      else positionOffset fset p.range.Pos))) := by
  unfold ApplyPatch
  rw [hfind]
  simp only [hget0, List.length_nil, Nat.zero_eq, beq_self_eq_true, if_true, hdisk]

/-- Evaluation of `ApplyPatch` when the patch's file already has a non-empty
buffer in the files map and the patch is a plain (non-template) replacement
with a valid end. -/
theorem applyPatch_plain_loaded {fset : List File} {disk : String → Option (List Nat)}
    {p : Patch} {files : List (String × List Nat)} {f : File} {buf : List Nat}
    (hfind : findFile fset p.range.Pos = some f)
    (hget : getFileBytes files f.name = buf)
    (hne : buf.length ≠ 0)
    (ht : containsTemplateMarker p.Str = false)
    (hEndValid : posIsValid p.range.End = true) :
    ApplyPatch fset disk p files =
      .ok (setFileBytes files f.name
        (buf.take (positionOffset fset p.range.Pos) ++ p.Str ++
         buf.drop (positionOffset fset p.range.End))) := by
  unfold ApplyPatch
  rw [hfind]
  have hcond : (buf.length == 0) = false := by simpa using hne
  simp only [hget, hcond, Bool.false_eq_true, if_false, ht, hEndValid, if_true]

/-- **C10.** A `Range` whose `End` is valid and equal to its `Pos` (a
zero-width replacement) contains no position at all; two such ranges at the
same position do not overlap; and `ApplyPatches` accepts a patch set holding
two such patches, splicing both at the same byte offset (the later-sorted
patch's text ends up before the earlier one's). -/
theorem zero_width_ranges (P : Nat) (s₁ s₂ : List Nat) (fset : List File)
    (disk : String → Option (List Nat)) (f : File) (orig : List Nat)
    (hfind : findFile fset P = some f)
    (hdisk : disk f.name = some orig)
    (hlen : orig.length = f.size)
    (horig : orig ≠ [])
    (ht₁ : containsTemplateMarker s₁ = false)
    (ht₂ : containsTemplateMarker s₂ = false) :
    (∀ q, Range.Contains ⟨P, P⟩ q = false) ∧
    Range.Overlaps ⟨P, P⟩ ⟨P, P⟩ = false ∧
    ApplyPatches fset disk [⟨⟨P, P⟩, [], s₁⟩, ⟨⟨P, P⟩, [], s₂⟩] =
      .ok [(f.name, orig.take (P - f.base) ++ s₂ ++ s₁ ++ orig.drop (P - f.base))] := by
  obtain ⟨hP, hbase, hsize⟩ := findFile_spec hfind
  have hvalid : posIsValid P = true := by simp [posIsValid, hP]
  have hcont : ∀ q, Range.Contains ⟨P, P⟩ q = false := by
    intro q
    simp only [Range.Contains, hvalid, Bool.not_true, Bool.false_eq_true, if_false]
    simp only [Bool.and_eq_false_iff, decide_eq_false_iff_not, gt_iff_lt, not_lt, not_le]
    omega
  have hov : Range.Overlaps ⟨P, P⟩ ⟨P, P⟩ = false := by
    simp [Range.Overlaps, hcont]
  refine ⟨hcont, hov, ?_⟩
  have hofflen : P - f.base ≤ orig.length := by omega
  have htake : (orig.take (P - f.base)).length = P - f.base := by
    simp [List.length_take]; omega
  have hsort : (([⟨⟨P, P⟩, [], s₁⟩, ⟨⟨P, P⟩, [], s₂⟩] :
      List Patch).insertionSort patchLE) = [⟨⟨P, P⟩, [], s₁⟩, ⟨⟨P, P⟩, [], s₂⟩] := by
    simp [List.insertionSort, List.orderedInsert, patchLE]
  unfold ApplyPatches
  rw [hsort]
  have hget0 : getFileBytes ([] : List (String × List Nat)) f.name = [] := rfl
  have happly₁ : ApplyPatch fset disk ⟨⟨P, P⟩, [], s₁⟩ [] =
      .ok [(f.name, orig.take (P - f.base) ++ s₁ ++ orig.drop (P - f.base))] := by
    rw [applyPatch_fresh hfind hget0 hdisk]
    simp only [ht₁, Bool.false_eq_true, if_false, hvalid, if_true,
      positionOffset_eq hfind, setFileBytes, beq_self_eq_true, if_true]
  have hbuf₁ne : (orig.take (P - f.base) ++ s₁ ++ orig.drop (P - f.base)).length ≠ 0 := by
    simp only [List.length_append, List.length_take, List.length_drop]
    have : orig.length ≠ 0 := fun h => horig (List.eq_nil_of_length_eq_zero h)
    omega
  have hget₁ : getFileBytes [(f.name, orig.take (P - f.base) ++ s₁ ++
      orig.drop (P - f.base))] f.name =
      orig.take (P - f.base) ++ s₁ ++ orig.drop (P - f.base) := by
    simp [getFileBytes]
  have happly₂ : ApplyPatch fset disk ⟨⟨P, P⟩, [], s₂⟩
      [(f.name, orig.take (P - f.base) ++ s₁ ++ orig.drop (P - f.base))] =
      .ok [(f.name, orig.take (P - f.base) ++ s₂ ++ s₁ ++ orig.drop (P - f.base))] := by
    rw [applyPatch_plain_loaded hfind hget₁ hbuf₁ne ht₂ hvalid]
    rw [positionOffset_eq hfind]
    rw [List.append_assoc (orig.take (P - f.base)) s₁ (orig.drop (P - f.base))]
    rw [List.take_left' htake, List.drop_left' htake]
    simp [setFileBytes]
  simp only [applyPatchesLoop, hvalid, Bool.not_true, Bool.false_eq_true, if_false,
    lt_self_iff_false, decide_False, Bool.and_false, happly₁, happly₂, hov]

end Superpose

namespace Superpose

/-- Witness for `zero_width_ranges`: two zero-width replacements at position
`4` of the example file are accepted and both splice at byte offset `3`. -/
theorem zero_width_ranges_witness :
    (∀ q, Range.Contains ⟨4, 4⟩ q = false) ∧
    Range.Overlaps ⟨4, 4⟩ ⟨4, 4⟩ = false ∧
    ApplyPatches exampleFset exampleDisk
      [⟨⟨4, 4⟩, [], bytes "A"⟩, ⟨⟨4, 4⟩, [], bytes "B"⟩] =
      .ok [((⟨"f.go", 1, 10⟩ : File).name,
        (bytes "0123456789").take (4 - (⟨"f.go", 1, 10⟩ : File).base) ++ bytes "B" ++
          bytes "A" ++ (bytes "0123456789").drop (4 - (⟨"f.go", 1, 10⟩ : File).base))] :=
  zero_width_ranges 4 (bytes "A") (bytes "B") exampleFset exampleDisk
    ⟨"f.go", 1, 10⟩ (bytes "0123456789")
    (by decide) (by decide) (by decide) (by decide) (by decide) (by decide)

/-- What a successful capture-map construction produces: every entry's value
is a slice of the buffer `fileBytes` that was passed in, at the offsets of a
capture range from the patch. -/
theorem buildCaptureMap_ok_spec (fset : List File) (name : String)
    (fileBytes : List Nat) :
    ∀ (capturesList : List (List Nat × Range)) (caps : List (List Nat × List Nat)),
      buildCaptureMap fset name fileBytes capturesList = .ok caps →
      ∀ kv ∈ caps, ∃ r, (kv.1, r) ∈ capturesList ∧
        ∃ so eo, fsetPosition fset r.Pos = some (name, so) ∧
          fsetPosition fset r.End = some (name, eo) ∧
          kv.2 = (fileBytes.take eo).drop so := by
  intro capturesList
  induction capturesList with
  | nil =>
    intro caps h kv hkv
    simp only [buildCaptureMap] at h
    cases h
    simp at hkv
  | cons hd tl ih =>
    intro caps h kv hkv
    obtain ⟨k, capture⟩ := hd
    simp only [buildCaptureMap] at h
    rcases hs : fsetPosition fset capture.Pos with _ | ⟨sf, so⟩ <;> rw [hs] at h
    · exact Except.noConfusion h
    · rcases he : fsetPosition fset capture.End with _ | ⟨ef, eo⟩ <;> rw [he] at h
      · exact Except.noConfusion h
      · dsimp only at h
        split_ifs at h with hneq
        rcases hrec : buildCaptureMap fset name fileBytes tl with e | caps' <;>
          rw [hrec] at h
        · exact Except.noConfusion h
        · cases h
          simp only [Bool.or_eq_true, decide_eq_true_eq, not_or,
            Decidable.not_not] at hneq
          rcases List.mem_cons.mp hkv with hkv | hkv
          · subst hkv
            exact ⟨capture, List.mem_cons_self _ _,
              so, eo, by rw [hs, hneq.1], by rw [he, hneq.2], rfl⟩
          · obtain ⟨r, hr, so', eo', h1, h2, h3⟩ := ih caps' hrec kv hkv
            exact ⟨r, List.mem_cons_of_mem _ hr, so', eo', h1, h2, h3⟩

/-- **C3 (amended).** Template captures are read from the file's *current*
buffer at the capture's original offsets.  When the patch is the first in the
run to touch its file (the files map holds nothing for it), that buffer is the
file's original on-disk bytes, so every capture value is the literal text the
capture's range spans in the unmodified file; a capture whose range lies
beyond a patch applied earlier in the same run can instead observe already
edited bytes (see the counterexample). -/
theorem applyPatch_captures_from_original_on_first_touch
    {fset : List File} {disk : String → Option (List Nat)} {p : Patch}
    {files : List (String × List Nat)} {f : File} {orig : List Nat}
    {caps : List (List Nat × List Nat)}
    (hfind : findFile fset p.range.Pos = some f)
    (hget0 : getFileBytes files f.name = [])
    (hdisk : disk f.name = some orig)
    (htmpl : containsTemplateMarker p.Str = true)
    (hcaps : buildCaptureMap fset f.name orig p.Captures = .ok caps) :
    ApplyPatch fset disk p files =
      .ok (setFileBytes (setFileBytes files f.name orig) f.name
        (orig.take (positionOffset fset p.range.Pos) ++ renderTemplate caps p.Str ++
         orig.drop (if posIsValid p.range.End then positionOffset fset p.range.End
                    else positionOffset fset p.range.Pos))) ∧
    ∀ kv ∈ caps, ∃ r, (kv.1, r) ∈ p.Captures ∧
      ∃ so eo, fsetPosition fset r.Pos = some (f.name, so) ∧
        fsetPosition fset r.End = some (f.name, eo) ∧
        kv.2 = (orig.take eo).drop so := by
  constructor
  · rw [applyPatch_fresh hfind hget0 hdisk]
    simp only [htmpl, if_true, hcaps]
  · exact buildCaptureMap_ok_spec fset f.name orig p.Captures caps hcaps

/-- Witness for `applyPatch_captures_from_original_on_first_touch`: a
template patch applied to a fresh file reads its capture (`89`, positions
`9..11`) from the disk bytes. -/
theorem applyPatch_captures_from_original_on_first_touch_witness :
    ApplyPatch exampleFset exampleDisk
      ⟨⟨2, 0⟩, [(bytes "c", ⟨9, 11⟩)], bytes "\x7b\x7b.c\x7d\x7d"⟩ [] =
      .ok (setFileBytes (setFileBytes [] "f.go" (bytes "0123456789")) "f.go"
        ((bytes "0123456789").take (positionOffset exampleFset 2) ++
          renderTemplate [(bytes "c", bytes "89")] (bytes "\x7b\x7b.c\x7d\x7d") ++
          (bytes "0123456789").drop (if posIsValid (0 : Nat)
            then positionOffset exampleFset 0 else positionOffset exampleFset 2))) ∧
    ∀ kv ∈ [(bytes "c", bytes "89")],
      ∃ r, (kv.1, r) ∈ [(bytes "c", (⟨9, 11⟩ : Range))] ∧
        ∃ so eo, fsetPosition exampleFset r.Pos = some ("f.go", so) ∧
          fsetPosition exampleFset r.End = some ("f.go", eo) ∧
          kv.2 = ((bytes "0123456789").take eo).drop so :=
  @applyPatch_captures_from_original_on_first_touch exampleFset exampleDisk
    ⟨⟨2, 0⟩, [(bytes "c", ⟨9, 11⟩)], bytes "\x7b\x7b.c\x7d\x7d"⟩ []
    ⟨"f.go", 1, 10⟩ (bytes "0123456789") [(bytes "c", bytes "89")]
    (by decide) (by decide) (by decide) (by decide) (by decide)

/-- **C3 (counterexample).** A capture whose range lies in a region already
edited by a higher-position patch of the same run is *not* read from the
original unmodified file bytes: the original text at positions `9..11` of
`f.go` is `89`, but after the higher patch replaced it with `XY`, the second
patch's template renders `XY`, so the claimed result (insertion of `89`) is
not produced. -/
theorem applyPatch_captures_not_from_original :
    ((bytes "0123456789").take 10).drop 8 = bytes "89" ∧
    ApplyPatches exampleFset exampleDisk
      [⟨⟨9, 11⟩, [], bytes "XY"⟩,
       ⟨⟨2, 0⟩, [(bytes "c", ⟨9, 11⟩)], bytes "\x7b\x7b.c\x7d\x7d"⟩] =
      .ok [("f.go", bytes "0XY1234567XY")] ∧
    ApplyPatches exampleFset exampleDisk
      [⟨⟨9, 11⟩, [], bytes "XY"⟩,
       ⟨⟨2, 0⟩, [(bytes "c", ⟨9, 11⟩)], bytes "\x7b\x7b.c\x7d\x7d"⟩] ≠
      .ok [("f.go", bytes "0891234567XY")] :=
  ⟨by decide, by decide, by decide⟩

end Superpose

namespace Superpose

/-! ### `dimPkgActionID` (`src/superpose.go`) and its SHA-256 collaborator

`Superpose.hash` is `sha256.New()`; `dimPkgActionID` resets it, writes the
original package action ID, the literal `/superpose/`, the dimension, `/` and
the configured version, and truncates the sum to the length of the input
action ID.  SHA-256 itself is the external `crypto/sha256` collaborator,
embedded below from FIPS 180-4 (operating on byte lists, words as `Nat`
mod `2^32`). -/

/-- Truncation to a 32-bit word. -/
def w32 (x : Nat) : Nat := x % 4294967296

/-- 32-bit right rotation. -/
def rotr32 (n x : Nat) : Nat := w32 ((x >>> n) ||| (x <<< (32 - n)))

/-- The SHA-256 round constants (the fractional parts of the cube roots of
the first 64 primes), written in decimal. -/
def sha256K : List Nat :=
  [1116352408, 1899447441, 3049323471, 3921009573, 961987163,
   1508970993, 2453635748, 2870763221, 3624381080, 310598401,
   607225278, 1426881987, 1925078388, 2162078206, 2614888103,
   3248222580, 3835390401, 4022224774, 264347078, 604807628,
   770255983, 1249150122, 1555081692, 1996064986, 2554220882,
   2821834349, 2952996808, 3210313671, 3336571891, 3584528711,
   113926993, 338241895, 666307205, 773529912, 1294757372,
   1396182291, 1695183700, 1986661051, 2177026350, 2456956037,
   2730485921, 2820302411, 3259730800, 3345764771, 3516065817,
   3600352804, 4094571909, 275423344, 430227734, 506948616,
   659060556, 883997877, 958139571, 1322822218, 1537002063,
   1747873779, 1955562222, 2024104815, 2227730452, 2361852424,
   2428436474, 2756734187, 3204031479, 3329325298]

/-- The SHA-256 initial hash value, written in decimal. -/
def sha256H0 : List Nat :=
  [1779033703, 3144134277, 1013904242,
   2773480762, 1359893119, 2600822924,
   528734635, 1541459225]

/-- Big-endian byte rendering of `x` into `n` bytes. -/
def natToBE (n x : Nat) : List Nat :=
  (List.range n).map (fun i => (x >>> (8 * (n - 1 - i))) % 256)

/-- Merkle–Damgard padding: `0x80`, zeros, then the 64-bit bit length. -/
def sha256Pad (msg : List Nat) : List Nat :=
  msg ++ [128] ++ List.replicate ((64 - ((msg.length + 9) % 64)) % 64) 0 ++
    natToBE 8 (8 * msg.length)

/-- The 16 big-endian words of byte block `i` of the padded message. -/
def sha256BlockWords (padded : List Nat) (i : Nat) : List Nat :=
  (List.range 16).map (fun j =>
    (padded.getD (64 * i + 4 * j) 0) <<< 24 |||
    (padded.getD (64 * i + 4 * j + 1) 0) <<< 16 |||
    (padded.getD (64 * i + 4 * j + 2) 0) <<< 8 |||
    padded.getD (64 * i + 4 * j + 3) 0)

/-- The 64-entry message schedule extending the block words. -/
def sha256Schedule (ws : List Nat) : List Nat :=
  (List.range 48).foldl (fun acc t =>
    acc ++ [w32 (
      (rotr32 17 (acc.getD (t + 14) 0) ^^^ rotr32 19 (acc.getD (t + 14) 0) ^^^
        (acc.getD (t + 14) 0 >>> 10)) +
      acc.getD (t + 9) 0 +
      (rotr32 7 (acc.getD (t + 1) 0) ^^^ rotr32 18 (acc.getD (t + 1) 0) ^^^
        (acc.getD (t + 1) 0 >>> 3)) +
      acc.getD t 0)]) ws

/-- One round of the SHA-256 compression function on state
`[a, b, c, d, e, f, g, h]`. -/
def sha256Round (W : List Nat) (st : List Nat) (t : Nat) : List Nat :=
  let a := st.getD 0 0
  let b := st.getD 1 0
  let c := st.getD 2 0
  let d := st.getD 3 0
  let e := st.getD 4 0
  let f := st.getD 5 0
  let g := st.getD 6 0
  let h := st.getD 7 0
  let S1 := rotr32 6 e ^^^ rotr32 11 e ^^^ rotr32 25 e
  let ch := (e &&& f) ^^^ ((e ^^^ 4294967295) &&& g)
  let t1 := w32 (h + S1 + ch + sha256K.getD t 0 + W.getD t 0)
  let S0 := rotr32 2 a ^^^ rotr32 13 a ^^^ rotr32 22 a
  let mj := (a &&& b) ^^^ (a &&& c) ^^^ (b &&& c)
  let t2 := w32 (S0 + mj)
  [w32 (t1 + t2), a, b, c, w32 (d + t1), e, f, g]

/-- SHA-256 of a byte list: pad, then per 64-byte block run the 64-round
compression and add into the chaining value; render the eight words
big-endian. -/
def sha256 (msg : List Nat) : List Nat :=
  let padded := sha256Pad msg
  let final := (List.range (padded.length / 64)).foldl (fun H i =>
    let W := sha256Schedule (sha256BlockWords padded i)
    let st := (List.range 64).foldl (sha256Round W) H
    List.zipWith (fun x y => w32 (x + y)) H st) sha256H0
  final.foldr (fun wrd acc => natToBE 4 wrd ++ acc) []

/-- The exact byte string `dimPkgActionID` (`src/superpose.go`) feeds to the
hash: original action ID, `/superpose/`, dimension, `/`, engine version. -/
def dimPkgActionIDInput (origPkgActionID dim version : List Nat) : List Nat :=
  origPkgActionID ++ bytes "/superpose/" ++ dim ++ bytes "/" ++ version

/-- `dimPkgActionID` from `src/superpose.go`: the SHA-256 sum of the input,
truncated to the length of the original action ID
(`s.hash.Sum(nil)[:len(origPkgActionID)]`). -/
def dimPkgActionID (origPkgActionID dim version : List Nat) : List Nat :=
  (sha256 (dimPkgActionIDInput origPkgActionID dim version)).take
    origPkgActionID.length

/-- **C4 (amended).** The hash input `dimPkgActionID` derives its result from
is injectively encoded: with the fingerprint and dimension fixed it differs
whenever the engine version differs, and with dimension and version fixed it
differs whenever the fingerprint differs.  Distinctness of the derived IDs
themselves holds only up to collisions of the truncated SHA-256 (and fails
outright for an empty input action ID, where the truncation is empty). -/
theorem dimPkgActionIDInput_injective :
    (∀ (fp dim v₁ v₂ : List Nat), v₁ ≠ v₂ →
      dimPkgActionIDInput fp dim v₁ ≠ dimPkgActionIDInput fp dim v₂) ∧
    (∀ (fp₁ fp₂ dim v : List Nat), fp₁ ≠ fp₂ →
      dimPkgActionIDInput fp₁ dim v ≠ dimPkgActionIDInput fp₂ dim v) := by
  constructor
  · intro fp dim v₁ v₂ hne h
    exact hne (List.append_cancel_left h)
  · intro fp₁ fp₂ dim v hne h
    unfold dimPkgActionIDInput at h
    exact hne (List.append_cancel_right (List.append_cancel_right
      (List.append_cancel_right (List.append_cancel_right h))))

/-- Witness for `dimPkgActionIDInput_injective` at concrete fingerprints,
dimension and versions. -/
theorem dimPkgActionIDInput_injective_witness :
    dimPkgActionIDInput (bytes "fp") (bytes "mocktime") (bytes "v1") ≠
      dimPkgActionIDInput (bytes "fp") (bytes "mocktime") (bytes "v2") ∧
    dimPkgActionIDInput (bytes "fp1") (bytes "mocktime") (bytes "v") ≠
      dimPkgActionIDInput (bytes "fp2") (bytes "mocktime") (bytes "v") :=
  ⟨dimPkgActionIDInput_injective.1 _ _ _ _ (by decide),
   dimPkgActionIDInput_injective.2 _ _ _ _ (by decide)⟩

/-- **C4 (counterexample).** The derived ID is truncated to the length of the
input action ID, so for an empty original action ID the derived IDs under two
different engine versions coincide (both empty), refuting distinctness for
every input. -/
theorem dimPkgActionID_not_injective_in_version :
    bytes "v1" ≠ bytes "v2" ∧
    dimPkgActionID [] (bytes "mocktime") (bytes "v1") =
      dimPkgActionID [] (bytes "mocktime") (bytes "v2") := by
  constructor
  · decide
  · simp [dimPkgActionID]

end Superpose

namespace Superpose

/-! ### The dimension-compile skip logic (`src/compile.go`, `compileDimensions`)

The first loop (lines 20–38) builds the filtered `transformers` map: a
dimension is kept only when its transformer applies to the package and —
unless `ForceTransform` is set — the cached-artifact probe
`dimDepPkgFile` returns an error (any lookup error just means "must
(re)build"; it is never propagated).  When the filtered map is empty the
function returns with no work.  Otherwise the transform-and-compile loop at
line 97 runs (`Transform` + `compilePatches`, the latter unconditionally
ending in a cache artifact and metadata write).  That loop, however, ranges
over `s.Config.Transformers` — every configured dimension — and not over the
filtered `transformers` map.

The package-loading steps between the two loops are external collaborators
and are modelled as succeeding.  `applies d` models
`t.AppliesToPackage(ctx, s.pkgPath)` and `cachedFile d` models
`s.dimDepPkgFile(s.pkgPath, dim)` for the fixed package being compiled. -/

/-- The filtered `transformers` map of `compileDimensions` (its key set, in
configuration order). -/
def selectTransformers (force : Bool) (applies : String → Except String Bool)
    (cachedFile : String → Except String String) : List String → Except String (List String)
  | [] => .ok []
  | d :: rest =>
    match applies d with
    | .error e => .error e
    | .ok false => selectTransformers force applies cachedFile rest
    | .ok true =>
      match force, cachedFile d with
      | false, .ok _ => selectTransformers force applies cachedFile rest
      | _, _ =>
        match selectTransformers force applies cachedFile rest with
        | .error e => .error e
        | .ok sel => .ok (d :: sel)

/-- The set of dimensions `compileDimensions` actually transforms and
compiles: none when the filtered map is empty, otherwise *every configured
dimension* (the loop at `src/compile.go` line 97 iterates
`s.Config.Transformers`, not the filtered `transformers`). -/
def compileDimensionsDims (force : Bool) (applies : String → Except String Bool)
    (cachedFile : String → Except String String) (dims : List String) :
    Except String (List String) :=
  match selectTransformers force applies cachedFile dims with
  | .error e => .error e
  | .ok sel => if sel.isEmpty then .ok [] else .ok dims

/-- Transformers for the C5 failing input: both dimensions apply to the
package. -/
def c5applies : String → Except String Bool := fun _ => .ok true

/-- Cache for the C5 failing input: the pair with dimension `mocktime` is
cached; the `other` pair's probe errors (a miss). -/
def c5cache : String → Except String String :=
  fun d => if d == "mocktime" then .ok "cached_pkg_.a" else .error "cache miss"

/-- **C5.** Evaluation at the failing input: with `ForceTransform` false,
dimension `mocktime` cached and dimension `other` not cached, the skip logic
excludes `mocktime` from the filtered map (and the `other` probe error is
swallowed, not propagated), yet the transform-and-compile loop still runs for
`mocktime`, because it iterates every configured dimension whenever the
filtered map is non-empty.  The claim's per-pair skip is therefore not what
the code does; the unused filtered `transformers` map shows the skip was the
intent. -/
theorem compileDimensions_transforms_cached_pair :
    selectTransformers false c5applies c5cache ["mocktime", "other"] = .ok ["other"] ∧
    compileDimensionsDims false c5applies c5cache ["mocktime", "other"] =
      .ok ["mocktime", "other"] ∧
    "mocktime" ∈ ["mocktime", "other"] := by
  refine ⟨by decide, by decide, by decide⟩

end Superpose

namespace Superpose

/-! ### The bridge signature check (`src/bridge.go`, `buildInitStatements`)

Lines 163–206: a bridge `var` spec must have exactly one name, a function
type and no value; the referenced function must exist in the same file as a
receiver-less `FuncDecl`; and the var's function type must print identically
(via `go/printer` on an empty fileset) to the declared function's type — any
difference, parameter names included, is a fatal error naming the variable.
`go/printer`'s rendering of a `FuncType` is the external collaborator
embedded here: parameter and result fields print their names
comma-separated before the type; a single unnamed result prints bare, any
other non-empty result list parenthesized. -/

/-- One field of a Go function signature: names (possibly none) and the
printed form of its type expression. -/
structure BField where
  names : List String
  typ : String
  deriving DecidableEq, Repr

/-- A Go function type: parameters and results. -/
structure BFuncType where
  params : List BField
  results : List BField
  deriving DecidableEq, Repr

/-- `go/printer` rendering of one field. -/
def printBField (f : BField) : String :=
  if f.names.isEmpty then f.typ
  else String.intercalate ", " f.names ++ " " ++ f.typ

/-- `go/printer` rendering of a comma-separated field list. -/
def printBFields (fs : List BField) : String :=
  String.intercalate ", " (fs.map printBField)

/-- `go/printer` rendering of an `ast.FuncType`. -/
def printFuncType (t : BFuncType) : String :=
  "func(" ++ printBFields t.params ++ ")" ++
    (match t.results with
     | [] => ""
     | [r] => if r.names.isEmpty then " " ++ r.typ
              else " (" ++ printBFields t.results ++ ")"
     | _ => " (" ++ printBFields t.results ++ ")")

/-- The declarations of a file the bridge scan looks at. -/
inductive BDecl where
  | varSpec (names : List String) (typ : Option BFuncType) (valueCount : Nat)
      (comment : Option String)
  | funcDecl (name : String) (hasRecv : Bool) (typ : BFuncType)
  deriving DecidableEq, Repr

/-- The function-declaration search of `buildInitStatements`: the first
receiver-less `FuncDecl` named `ref` in the file. -/
def findFuncDecl (ref : String) : List BDecl → Option BFuncType
  | [] => none
  | .funcDecl n hasRecv t :: rest =>
    if n == ref && !hasRecv then some t else findFuncDecl ref rest
  | _ :: rest => findFuncDecl ref rest

/-- The per-spec validation and statement synthesis of `buildInitStatements`
(`src/bridge.go` lines 163–206): shape checks on the var declaration, lookup
of the referenced function, textual comparison of the printed types, then the
assignment statement `var = alias.ref`. -/
def buildInitStatement (decls : List BDecl) (names : List String)
    (varType : Option BFuncType) (valueCount : Nat) (ref importAlias : String) :
    Except String String :=
  if names.length ≠ 1 then
    .error "dimension func vars can only have a single identifier"
  else
    let varName := names.headD ""
    match varType with
    | none => .error ("var " ++ varName ++ " is not typed with a func")
    | some funcType =>
      if valueCount ≠ 0 then .error ("var " ++ varName ++ " cannot have default")
      else
        match findFuncDecl ref decls with
        | none => .error ("unable to find func decl " ++ ref)
        | some declType =>
          if printFuncType funcType == printFuncType declType then
            .ok (varName ++ " = " ++ importAlias ++ "." ++ ref)
          else
            .error ("expected var " ++ varName ++ " to have type " ++
              printFuncType funcType ++ ", instead had " ++ printFuncType declType)

/-- **C6.** For a shape-valid bridge variable and a referenced receiver-less
function found in the same file, the bridge is accepted exactly when the
canonical printed renderings of the two function types are
character-identical; on mismatch the fatal error names the variable.  In
particular `func(x int)` and `func(y int)` — differing only in the parameter
name — print differently, so such a bridge is rejected. -/
theorem bridge_signature_check :
    (∀ (decls : List BDecl) (varName ref importAlias : String)
        (funcType declType : BFuncType),
      findFuncDecl ref decls = some declType →
      ((∃ stmt, buildInitStatement decls [varName] (some funcType) 0 ref importAlias =
          .ok stmt) ↔ printFuncType funcType = printFuncType declType)) ∧
    (∀ (decls : List BDecl) (varName ref importAlias : String)
        (funcType declType : BFuncType),
      findFuncDecl ref decls = some declType →
      printFuncType funcType ≠ printFuncType declType →
      ∃ rest, buildInitStatement decls [varName] (some funcType) 0 ref importAlias =
        .error ("expected var " ++ varName ++ rest)) ∧
    printFuncType ⟨[⟨["x"], "int"⟩], []⟩ ≠ printFuncType ⟨[⟨["y"], "int"⟩], []⟩ ∧
    buildInitStatement [.funcDecl "F" false ⟨[⟨["y"], "int"⟩], []⟩]
      ["G"] (some ⟨[⟨["x"], "int"⟩], []⟩) 0 "F" "import1" =
      .error "expected var G to have type func(x int), instead had func(y int)" := by
  refine ⟨?_, ?_, by decide, by decide⟩
  · intro decls varName ref importAlias funcType declType hfind
    unfold buildInitStatement
    rw [if_neg (by simp)]
    dsimp only [List.headD]
    rw [if_neg (by simp), hfind]
    dsimp only
    constructor
    · intro ⟨stmt, hstmt⟩
      by_cases heq : (printFuncType funcType == printFuncType declType) = true
      · exact eq_of_beq heq
      · rw [if_neg heq] at hstmt
        exact Except.noConfusion hstmt
    · intro heq
      rw [if_pos (by simpa using heq)]
      exact ⟨_, rfl⟩
  · intro decls varName ref importAlias funcType declType hfind hne
    unfold buildInitStatement
    rw [if_neg (by simp)]
    dsimp only [List.headD]
    rw [if_neg (by simp), hfind]
    dsimp only
    rw [if_neg (by simpa using hne)]
    refine ⟨" to have type " ++ printFuncType funcType ++ ", instead had " ++
      printFuncType declType, ?_⟩
    simp [String.append_assoc]

end Superpose

namespace Superpose

/-! ### The `//dim:<in>` bool-var rewriter (`src/compile.go`,
`transformInBoolVars`)

Every `var` declaration spec whose sole comment is `//<dim>:<in>` must have
exactly one name, an explicit `bool` identifier type and no value; the
generated patch inserts (no `End`) the text ` = true` at the end position of
the `bool` type token.  The `go/ast` shapes the function inspects are
embedded as `GoType`/`VSpec`/`GoDecl`. -/

/-- A type expression as the rewriter sees it: an identifier (with its name
and end position) or anything else (only its end position matters). -/
inductive GoType where
  | ident (name : String) (endPos : Nat)
  | other (endPos : Nat)
  deriving DecidableEq, Repr

/-- A `var` spec: names, optional type, number of initializer values, and the
texts of its trailing comment group. -/
structure VSpec where
  names : List String
  typ : Option GoType
  valueCount : Nat
  comments : List String
  deriving DecidableEq, Repr

/-- A top-level declaration: a `var` declaration with its specs, or any
other declaration (ignored by the rewriter). -/
inductive GoDecl where
  | varDecl (specs : List VSpec)
  | otherDecl
  deriving DecidableEq, Repr

/-- The spec loop of `transformInBoolVars`: specs without the expected sole
comment are skipped; a commented spec is validated (single name, explicit
`bool` ident type, no value) and yields the insertion patch
`{Range: {Pos: spec.Type.End()}, Str: " = true"}`. -/
def transformInBoolVarsSpecs (expectedComment : String) :
    List VSpec → Except String (List Patch)
  | [] => .ok []
  | spec :: rest =>
    match spec.comments with
    | [c] =>
      if c == expectedComment then
        if spec.names.length ≠ 1 then
          .error "dimension in bool vars can only have a single identifier"
        else
          match spec.typ with
          | some (.ident tn e) =>
            if tn ≠ "bool" then
              .error ("dimension in bool var " ++ spec.names.headD "" ++
                " must have explicit bool type")
            else if spec.valueCount ≠ 0 then
              .error ("dimension in bool var " ++ spec.names.headD "" ++
                " must not have a value already")
            else
              match transformInBoolVarsSpecs expectedComment rest with
              | .error er => .error er
              | .ok ps => .ok (⟨⟨e, 0⟩, [], bytes " = true"⟩ :: ps)
          | _ =>
            .error ("dimension in bool var " ++ spec.names.headD "" ++
              " must have explicit bool type")
      else transformInBoolVarsSpecs expectedComment rest
    | _ => transformInBoolVarsSpecs expectedComment rest

/-- The declaration loop: only `var` declarations are inspected. -/
def transformInBoolVarsDecls (expectedComment : String) :
    List GoDecl → Except String (List Patch)
  | [] => .ok []
  | .varDecl specs :: rest =>
    match transformInBoolVarsSpecs expectedComment specs with
    | .error er => .error er
    | .ok ps =>
      match transformInBoolVarsDecls expectedComment rest with
      | .error er => .error er
      | .ok ps' => .ok (ps ++ ps')
  | .otherDecl :: rest => transformInBoolVarsDecls expectedComment rest

/-- The file loop of `transformInBoolVars` over `pkg.Syntax`. -/
def transformInBoolVarsFiles (expectedComment : String) :
    List (List GoDecl) → Except String (List Patch)
  | [] => .ok []
  | f :: rest =>
    match transformInBoolVarsDecls expectedComment f with
    | .error er => .error er
    | .ok ps =>
      match transformInBoolVarsFiles expectedComment rest with
      | .error er => .error er
      | .ok ps' => .ok (ps ++ ps')

/-- `transformInBoolVars` from `src/compile.go`: the expected comment is
`//<dim>:<in>`. -/
def transformInBoolVars (dim : String) (files : List (List GoDecl)) :
    Except String (List Patch) :=
  transformInBoolVarsFiles ("//" ++ dim ++ ":<in>") files

/-- A spec qualifies for the InVar patch at end position `e`. -/
def qualifiesInVar (ec : String) (spec : VSpec) (e : Nat) : Prop :=
  spec.comments = [ec] ∧ spec.names.length = 1 ∧ spec.valueCount = 0 ∧
    spec.typ = some (.ident "bool" e)

/-- A spec carries the expected comment but violates the required shape. -/
def badInVar (ec : String) (spec : VSpec) : Prop :=
  spec.comments = [ec] ∧ (spec.names.length ≠ 1 ∨
    (∀ e, spec.typ ≠ some (.ident "bool" e)) ∨ spec.valueCount ≠ 0)

theorem transformInBoolVarsSpecs_ok_shape (ec : String) :
    ∀ (specs : List VSpec) (ps : List Patch),
      transformInBoolVarsSpecs ec specs = .ok ps →
      ∀ p ∈ ps, p.range.End = 0 ∧ p.Str = bytes " = true" ∧ p.Captures = [] ∧
        ∃ spec ∈ specs, qualifiesInVar ec spec p.range.Pos := by
  intro specs
  induction specs with
  | nil =>
    intro ps h p hp
    cases h
    simp at hp
  | cons spec rest ih =>
    intro ps h p hp
    simp only [transformInBoolVarsSpecs] at h
    rcases hc : spec.comments with _ | ⟨c, cs⟩ <;> rw [hc] at h
    · obtain ⟨h1, h2, h3, sp, hsp, hq⟩ := ih ps h p hp
      exact ⟨h1, h2, h3, sp, List.mem_cons_of_mem _ hsp, hq⟩
    · rcases cs with _ | _
      · dsimp only at h
        by_cases hce : (c == ec) = true
        · rw [if_pos hce] at h
          by_cases hnames : spec.names.length = 1
          · rw [if_neg (by simp [hnames])] at h
            rcases ht : spec.typ with _ | t <;> rw [ht] at h
            · exact Except.noConfusion h
            · rcases t with ⟨tn, e⟩ | e
              · dsimp only at h
                by_cases htn : tn = "bool"
                · subst htn
                  rw [if_neg (by simp)] at h
                  by_cases hval : spec.valueCount = 0
                  · rw [if_neg (by simp [hval])] at h
                    rcases hrec : transformInBoolVarsSpecs ec rest with er | ps' <;>
                      rw [hrec] at h
                    · exact Except.noConfusion h
                    · cases h
                      rcases List.mem_cons.mp hp with hp | hp
                      · subst hp
                        refine ⟨rfl, rfl, rfl, spec, List.mem_cons_self _ _,
                          ?_, hnames, hval, ht⟩
                        rw [hc]
                        have : c = ec := by simpa using hce
                        rw [this]
                      · obtain ⟨h1, h2, h3, sp, hsp, hq⟩ := ih ps' hrec p hp
                        exact ⟨h1, h2, h3, sp, List.mem_cons_of_mem _ hsp, hq⟩
                  · rw [if_pos (by simpa using hval)] at h
                    exact Except.noConfusion h
                · rw [if_pos (by simpa using htn)] at h
                  exact Except.noConfusion h
              · exact Except.noConfusion h
          · rw [if_pos (by simpa using hnames)] at h
            exact Except.noConfusion h
        · rw [if_neg hce] at h
          obtain ⟨h1, h2, h3, sp, hsp, hq⟩ := ih ps h p hp
          exact ⟨h1, h2, h3, sp, List.mem_cons_of_mem _ hsp, hq⟩
      · obtain ⟨h1, h2, h3, sp, hsp, hq⟩ := ih ps h p hp
        exact ⟨h1, h2, h3, sp, List.mem_cons_of_mem _ hsp, hq⟩
theorem transformInBoolVarsDecls_ok_shape (ec : String) :
    ∀ (decls : List GoDecl) (ps : List Patch),
      transformInBoolVarsDecls ec decls = .ok ps →
      ∀ p ∈ ps, p.range.End = 0 ∧ p.Str = bytes " = true" ∧ p.Captures = [] ∧
        ∃ specs, GoDecl.varDecl specs ∈ decls ∧
          ∃ spec ∈ specs, qualifiesInVar ec spec p.range.Pos := by
  intro decls
  induction decls with
  | nil =>
    intro ps h p hp
    cases h
    simp at hp
  | cons d rest ih =>
    intro ps h p hp
    rcases d with specs | _
    · simp only [transformInBoolVarsDecls] at h
      rcases h1 : transformInBoolVarsSpecs ec specs with er | ps₁ <;> rw [h1] at h
      · exact Except.noConfusion h
      · rcases h2 : transformInBoolVarsDecls ec rest with er | ps₂ <;> rw [h2] at h
        · exact Except.noConfusion h
        · cases h
          rcases List.mem_append.mp hp with hp | hp
          · obtain ⟨ha, hb, hcp, sp, hsp, hq⟩ :=
              transformInBoolVarsSpecs_ok_shape ec specs ps₁ h1 p hp
            exact ⟨ha, hb, hcp, specs, List.mem_cons_self _ _, sp, hsp, hq⟩
          · obtain ⟨ha, hb, hcp, specs', hmem, sp, hsp, hq⟩ := ih ps₂ h2 p hp
            exact ⟨ha, hb, hcp, specs', List.mem_cons_of_mem _ hmem, sp, hsp, hq⟩
    · simp only [transformInBoolVarsDecls] at h
      obtain ⟨ha, hb, hcp, specs', hmem, sp, hsp, hq⟩ := ih ps h p hp
      exact ⟨ha, hb, hcp, specs', List.mem_cons_of_mem _ hmem, sp, hsp, hq⟩

theorem transformInBoolVarsFiles_ok_shape (ec : String) :
    ∀ (files : List (List GoDecl)) (ps : List Patch),
      transformInBoolVarsFiles ec files = .ok ps →
      ∀ p ∈ ps, p.range.End = 0 ∧ p.Str = bytes " = true" ∧ p.Captures = [] ∧
        ∃ fileDecls ∈ files, ∃ specs, GoDecl.varDecl specs ∈ fileDecls ∧
          ∃ spec ∈ specs, qualifiesInVar ec spec p.range.Pos := by
  intro files
  induction files with
  | nil =>
    intro ps h p hp
    cases h
    simp at hp
  | cons f rest ih =>
    intro ps h p hp
    simp only [transformInBoolVarsFiles] at h
    rcases h1 : transformInBoolVarsDecls ec f with er | ps₁ <;> rw [h1] at h
    · exact Except.noConfusion h
    · rcases h2 : transformInBoolVarsFiles ec rest with er | ps₂ <;> rw [h2] at h
      · exact Except.noConfusion h
      · cases h
        rcases List.mem_append.mp hp with hp | hp
        · obtain ⟨ha, hb, hcp, specs, hmem, sp, hsp, hq⟩ :=
            transformInBoolVarsDecls_ok_shape ec f ps₁ h1 p hp
          exact ⟨ha, hb, hcp, f, List.mem_cons_self _ _, specs, hmem, sp, hsp, hq⟩
        · obtain ⟨ha, hb, hcp, fd, hfd, specs, hmem, sp, hsp, hq⟩ := ih ps₂ h2 p hp
          exact ⟨ha, hb, hcp, fd, List.mem_cons_of_mem _ hfd, specs, hmem, sp, hsp, hq⟩

theorem transformInBoolVarsSpecs_bad_error (ec : String) :
    ∀ (specs : List VSpec), (∃ spec ∈ specs, badInVar ec spec) →
      ∃ er, transformInBoolVarsSpecs ec specs = .error er := by
  intro specs
  induction specs with
  | nil =>
    intro ⟨spec, hmem, _⟩
    simp at hmem
  | cons spec rest ih =>
    intro ⟨sp, hmem, hbad⟩
    rcases hrun : transformInBoolVarsSpecs ec (spec :: rest) with er | ps
    · exact ⟨er, rfl⟩
    · exfalso
      rcases List.mem_cons.mp hmem with hsp | hsp
      · subst hsp
        obtain ⟨hcm, hviol⟩ := hbad
        simp only [transformInBoolVarsSpecs, hcm] at hrun
        rw [if_pos (by simp)] at hrun
        rcases hviol with hv | hv | hv
        · rw [if_pos (by simpa using hv)] at hrun
          exact Except.noConfusion hrun
        · rw [if_neg] at hrun
          · rcases ht : sp.typ with _ | t <;> rw [ht] at hrun
            · exact Except.noConfusion hrun
            · rcases t with ⟨tn, e⟩ | e
              · dsimp only at hrun
                by_cases htn : tn = "bool"
                · exact hv e (by rw [ht, htn])
                · rw [if_pos (by simpa using htn)] at hrun
                  exact Except.noConfusion hrun
              · exact Except.noConfusion hrun
          · by_contra hn
            -- names.length ≠ 1 would already have errored
            rw [if_pos hn] at hrun
            exact Except.noConfusion hrun
        · rw [if_neg] at hrun
          · rcases ht : sp.typ with _ | t <;> rw [ht] at hrun
            · exact Except.noConfusion hrun
            · rcases t with ⟨tn, e⟩ | e
              · dsimp only at hrun
                by_cases htn : tn = "bool"
                · subst htn
                  rw [if_neg (by simp)] at hrun
                  rw [if_pos (by simpa using hv)] at hrun
                  exact Except.noConfusion hrun
                · rw [if_pos (by simpa using htn)] at hrun
                  exact Except.noConfusion hrun
              · exact Except.noConfusion hrun
          · by_contra hn
            rw [if_pos hn] at hrun
            exact Except.noConfusion hrun
      · obtain ⟨er, her⟩ := ih ⟨sp, hsp, hbad⟩
        simp only [transformInBoolVarsSpecs] at hrun
        rcases hc : spec.comments with _ | ⟨c, cs⟩ <;> rw [hc] at hrun
        · rw [her] at hrun
          exact Except.noConfusion hrun
        · rcases cs with _ | _
          · dsimp only at hrun
            by_cases hce : (c == ec) = true
            · rw [if_pos hce] at hrun
              by_cases hnames : spec.names.length = 1
              · rw [if_neg (by simp [hnames])] at hrun
                rcases ht : spec.typ with _ | t <;> rw [ht] at hrun
                · exact Except.noConfusion hrun
                · rcases t with ⟨tn, e⟩ | e
                  · dsimp only at hrun
                    by_cases htn : tn = "bool"
                    · subst htn
                      rw [if_neg (by simp)] at hrun
                      by_cases hval : spec.valueCount = 0
                      · rw [if_neg (by simp [hval]), her] at hrun
                        exact Except.noConfusion hrun
                      · rw [if_pos (by simpa using hval)] at hrun
                        exact Except.noConfusion hrun
                    · rw [if_pos (by simpa using htn)] at hrun
                      exact Except.noConfusion hrun
                  · exact Except.noConfusion hrun
              · rw [if_pos (by simpa using hnames)] at hrun
                exact Except.noConfusion hrun
            · rw [if_neg hce, her] at hrun
              exact Except.noConfusion hrun
          · rw [her] at hrun
            exact Except.noConfusion hrun
theorem transformInBoolVarsDecls_bad_error (ec : String) :
    ∀ (decls : List GoDecl),
      (∃ specs, GoDecl.varDecl specs ∈ decls ∧ ∃ spec ∈ specs, badInVar ec spec) →
      ∃ er, transformInBoolVarsDecls ec decls = .error er := by
  intro decls
  induction decls with
  | nil =>
    intro ⟨specs, hmem, _⟩
    simp at hmem
  | cons d rest ih =>
    intro ⟨specs, hmem, hbad⟩
    rcases hrun : transformInBoolVarsDecls ec (d :: rest) with er | ps
    · exact ⟨er, rfl⟩
    · exfalso
      rcases List.mem_cons.mp hmem with hd | hd
      · subst hd
        obtain ⟨er, her⟩ := transformInBoolVarsSpecs_bad_error ec specs hbad
        simp only [transformInBoolVarsDecls, her] at hrun
        exact Except.noConfusion hrun
      · obtain ⟨er, her⟩ := ih ⟨specs, hd, hbad⟩
        rcases d with specs' | _
        · simp only [transformInBoolVarsDecls] at hrun
          rcases h1 : transformInBoolVarsSpecs ec specs' with e1 | ps₁ <;>
            rw [h1] at hrun
          · exact Except.noConfusion hrun
          · rw [her] at hrun
            exact Except.noConfusion hrun
        · simp only [transformInBoolVarsDecls, her] at hrun
          exact Except.noConfusion hrun

theorem transformInBoolVarsFiles_bad_error (ec : String) :
    ∀ (files : List (List GoDecl)),
      (∃ fileDecls ∈ files, ∃ specs, GoDecl.varDecl specs ∈ fileDecls ∧
        ∃ spec ∈ specs, badInVar ec spec) →
      ∃ er, transformInBoolVarsFiles ec files = .error er := by
  intro files
  induction files with
  | nil =>
    intro ⟨fd, hmem, _⟩
    simp at hmem
  | cons f rest ih =>
    intro ⟨fd, hmem, specs, hspecs, hbad⟩
    rcases hrun : transformInBoolVarsFiles ec (f :: rest) with er | ps
    · exact ⟨er, rfl⟩
    · exfalso
      rcases List.mem_cons.mp hmem with hf | hf
      · obtain ⟨er, her⟩ := transformInBoolVarsDecls_bad_error ec fd
          ⟨specs, hspecs, hbad⟩
        rw [hf] at her
        simp only [transformInBoolVarsFiles, her] at hrun
        exact Except.noConfusion hrun
      · obtain ⟨er, her⟩ := ih ⟨fd, hf, specs, hspecs, hbad⟩
        simp only [transformInBoolVarsFiles] at hrun
        rcases h1 : transformInBoolVarsDecls ec f with e1 | ps₁ <;> rw [h1] at hrun
        · exact Except.noConfusion hrun
        · rw [her] at hrun
          exact Except.noConfusion hrun

/-- Evaluation of `ApplyPatch` for a pure insertion (no `End`) with a
non-template string on a file whose buffer is already loaded: the text is
spliced at the single start offset and every original byte is kept. -/
theorem applyPatch_insert_loaded {fset : List File} {disk : String → Option (List Nat)}
    {p : Patch} {files : List (String × List Nat)} {f : File} {buf : List Nat}
    (hfind : findFile fset p.range.Pos = some f)
    (hget : getFileBytes files f.name = buf)
    (hne : buf.length ≠ 0)
    (ht : containsTemplateMarker p.Str = false)
    (hEnd : p.range.End = 0) :
    ApplyPatch fset disk p files =
      .ok (setFileBytes files f.name
        (buf.take (positionOffset fset p.range.Pos) ++ p.Str ++
         buf.drop (positionOffset fset p.range.Pos))) := by
  unfold ApplyPatch
  rw [hfind]
  have hcond : (buf.length == 0) = false := by simpa using hne
  have hEndv : posIsValid p.range.End = false := by simp [posIsValid, hEnd]
  simp only [hget, hcond, Bool.false_eq_true, if_false, ht, hEndv]

/-- **C7.** Patches produced by `transformInBoolVars` are pure insertions
(`End` unset) of exactly ` = true` (no captures) at the end position of the
`bool` type token of a spec whose sole comment is `//<dim>:<in>` and whose
shape is valid; splicing such a patch keeps every original byte of the file
(nothing else is modified); the text ` = true` is not a template; and any
spec carrying the comment but violating the shape (several names, no explicit
`bool` identifier type, or an initializer value) makes the function return a
fatal error. -/
theorem transformInBoolVars_insertions :
    (∀ (dim : String) (files : List (List GoDecl)) (ps : List Patch),
      transformInBoolVars dim files = .ok ps →
      ∀ p ∈ ps, p.range.End = 0 ∧ p.Str = bytes " = true" ∧ p.Captures = [] ∧
        ∃ fileDecls ∈ files, ∃ specs, GoDecl.varDecl specs ∈ fileDecls ∧
          ∃ spec ∈ specs, qualifiesInVar ("//" ++ dim ++ ":<in>") spec p.range.Pos) ∧
    (∀ (fset : List File) (disk : String → Option (List Nat)) (p : Patch)
        (files : List (String × List Nat)) (f : File) (buf : List Nat),
      findFile fset p.range.Pos = some f →
      getFileBytes files f.name = buf →
      buf.length ≠ 0 →
      containsTemplateMarker p.Str = false →
      p.range.End = 0 →
      ApplyPatch fset disk p files =
        .ok (setFileBytes files f.name
          (buf.take (positionOffset fset p.range.Pos) ++ p.Str ++
           buf.drop (positionOffset fset p.range.Pos))) ∧
        buf.take (positionOffset fset p.range.Pos) ++
          buf.drop (positionOffset fset p.range.Pos) = buf) ∧
    containsTemplateMarker (bytes " = true") = false ∧
    (∀ (dim : String) (files : List (List GoDecl)),
      (∃ fileDecls ∈ files, ∃ specs, GoDecl.varDecl specs ∈ fileDecls ∧
        ∃ spec ∈ specs, badInVar ("//" ++ dim ++ ":<in>") spec) →
      ∃ er, transformInBoolVars dim files = .error er) := by
  refine ⟨?_, ?_, by decide, ?_⟩
  · intro dim files ps h p hp
    exact transformInBoolVarsFiles_ok_shape ("//" ++ dim ++ ":<in>") files ps h p hp
  · intro fset disk p files f buf hfind hget hne ht hEnd
    exact ⟨applyPatch_insert_loaded hfind hget hne ht hEnd,
      List.take_append_drop _ buf⟩
  · intro dim files hbad
    exact transformInBoolVarsFiles_bad_error ("//" ++ dim ++ ":<in>") files hbad

/-- Witness for `transformInBoolVars_insertions`: a well-shaped
`var flagVar bool //mocktime:<in>` at type-end position `42` yields exactly
the insertion of ` = true` there, and a two-name spec with the comment is a
fatal error. -/
theorem transformInBoolVars_insertions_witness :
    (∀ p ∈ [(⟨⟨42, 0⟩, [], bytes " = true"⟩ : Patch)],
      p.range.End = 0 ∧ p.Str = bytes " = true" ∧ p.Captures = [] ∧
      ∃ fileDecls ∈ [[GoDecl.varDecl [⟨["flagVar"], some (.ident "bool" 42), 0,
          ["//mocktime:<in>"]⟩]]],
        ∃ specs, GoDecl.varDecl specs ∈ fileDecls ∧
          ∃ spec ∈ specs, qualifiesInVar ("//" ++ "mocktime" ++ ":<in>") spec
            p.range.Pos) ∧
    (∃ er, transformInBoolVars "mocktime"
      [[GoDecl.varDecl [⟨["a", "b"], some (.ident "bool" 7), 0,
        ["//mocktime:<in>"]⟩]]] = .error er) :=
  ⟨transformInBoolVars_insertions.1 "mocktime"
      [[GoDecl.varDecl [⟨["flagVar"], some (.ident "bool" 42), 0,
        ["//mocktime:<in>"]⟩]]]
      [⟨⟨42, 0⟩, [], bytes " = true"⟩] (by decide),
   transformInBoolVars_insertions.2.2.2 "mocktime"
      [[GoDecl.varDecl [⟨["a", "b"], some (.ident "bool" 7), 0,
        ["//mocktime:<in>"]⟩]]]
      ⟨_, List.mem_cons_self _ _, _, List.mem_cons_self _ _, _,
        List.mem_cons_self _ _, by decide, Or.inl (by decide)⟩⟩

end Superpose

namespace Superpose

/-! ### The Import-Manifest Rewriter (`importCfg` in the repo)

The manifest is the line list of an `importcfg` file; entries are lines
`packagefile <path>=<file>`.  The mutation operations match the path by the
string prefix `packagefile <path>=`.  Lines are byte (`List Char`) strings
here, since the operations are raw prefix tests, not parsed records.
`DimensionPackagePath` is from `src/superpose.go`. -/

/-- The prefix `packagefile <path>=` that identifies the entry for a path. -/
def pkgFilePrefix (pkgPath : List Char) : List Char :=
  "packagefile ".data ++ pkgPath ++ ['=']

/-- The full manifest line `packagefile <path>=<file>`. -/
def mkPkgFileLine (pkgPath pkgFile : List Char) : List Char :=
  "packagefile ".data ++ pkgPath ++ ['='] ++ pkgFile

/-- `importCfg.removePkgFile`: drop the first line for the exact path,
reporting whether one was found. -/
def removePkgFile : List (List Char) → List Char → List (List Char) × Bool
  | [], _ => ([], false)
  | line :: rest, pkgPath =>
    if (pkgFilePrefix pkgPath).isPrefixOf line then (rest, true)
    else
      let r := removePkgFile rest pkgPath
      (line :: r.1, r.2)

/-- `importCfg.addPkgFile`: append the entry only when no line for the exact
path is present. -/
def addPkgFile (lines : List (List Char)) (pkgPath pkgFile : List Char) :
    List (List Char) :=
  if lines.any (fun line => (pkgFilePrefix pkgPath).isPrefixOf line) then lines
  else lines ++ [mkPkgFileLine pkgPath pkgFile]

/-- `importCfg.includePkg`: when the path is absent, resolve its artifact via
the host toolchain's export lookup (`go list -export`, an external
collaborator passed as `pkgFileLookup`) and append it. -/
def includePkg (pkgFileLookup : List Char → Except String (List Char))
    (lines : List (List Char)) (pkgPath : List Char) :
    Except String (List (List Char)) :=
  if lines.any (fun line => (pkgFilePrefix pkgPath).isPrefixOf line) then .ok lines
  else
    match pkgFileLookup pkgPath with
    | .error e => .error e
    | .ok pkgFile => .ok (lines ++ [mkPkgFileLine pkgPath pkgFile])

/-- `Superpose.DimensionPackagePath`: the dimension-qualified package path. -/
def DimensionPackagePath (origPkg dim : List Char) : List Char :=
  origPkg ++ "__".data ++ dim

/-- The inner loop of `importCfg.updateDimPkgRefs` over one dimension's
packages: resolve the cached artifact (`dimDepPkgFile`), optionally remove
the original entry, and add the dimension-qualified entry. -/
def updateDimPkgsLoop (dimDepPkgFile : List Char → List Char → Except String (List Char))
    (dim : List Char) (replace : Bool) :
    List (List Char) → List (List Char) → Except String (List (List Char))
  | [], lines => .ok lines
  | pkg :: restPkgs, lines =>
    match dimDepPkgFile pkg dim with
    | .error e => .error e
    | .ok pkgFile =>
      let lines1 := if replace then (removePkgFile lines pkg).1 else lines
      updateDimPkgsLoop dimDepPkgFile dim replace restPkgs
        (addPkgFile lines1 (DimensionPackagePath pkg dim) pkgFile)

/-- `importCfg.updateDimPkgRefs` over the whole `dimPkgRefs` map (dimension →
original package paths). -/
def updateDimPkgRefs (dimDepPkgFile : List Char → List Char → Except String (List Char))
    (replace : Bool) :
    List (List Char × List (List Char)) → List (List Char) →
    Except String (List (List Char))
  | [], lines => .ok lines
  | (dim, pkgs) :: restRefs, lines =>
    match updateDimPkgsLoop dimDepPkgFile dim replace pkgs lines with
    | .error e => .error e
    | .ok lines' => updateDimPkgRefs dimDepPkgFile replace restRefs lines'

/-- The number of manifest lines carrying the entry prefix for a path. -/
def countPkgLines (lines : List (List Char)) (path : List Char) : Nat :=
  (lines.filter (fun line => (pkgFilePrefix path).isPrefixOf line)).length

/-- Two marker-free strings followed by the marker: one is a prefix of the
other extended arbitrarily exactly when they are equal. -/
theorem eq_marker_prefix : ∀ {Q P : List Char} (F : List Char), '=' ∉ Q → '=' ∉ P →
    ((Q ++ ['=']) <+: (P ++ ['=']) ++ F ↔ Q = P) := by
  intro Q
  induction Q with
  | nil =>
    intro P F hQ hP
    cases P with
    | nil =>
      simp only [List.nil_append]
      constructor
      · intro _
        trivial
      · intro _
        exact ⟨F, rfl⟩
    | cons p P' =>
      simp only [List.nil_append, List.cons_append]
      rw [List.cons_prefix_cons]
      constructor
      · intro ⟨heq, _⟩
        exact absurd (heq ▸ List.mem_cons_self p P') hP
      · intro h
        exact absurd h (by simp)
  | cons q Q' ih =>
    intro P F hQ hP
    cases P with
    | nil =>
      simp only [List.cons_append, List.nil_append]
      rw [List.cons_prefix_cons]
      constructor
      · intro ⟨heq, _⟩
        exact absurd (heq ▸ List.mem_cons_self q Q') hQ
      · intro h
        exact absurd h (by simp)
    | cons p P' =>
      simp only [List.cons_append]
      rw [List.cons_prefix_cons]
      have hQ' : '=' ∉ Q' := fun h => hQ (List.mem_cons_of_mem _ h)
      have hP' : '=' ∉ P' := fun h => hP (List.mem_cons_of_mem _ h)
      rw [ih F hQ' hP']
      constructor
      · intro ⟨h1, h2⟩
        rw [h1, h2]
      · intro h
        injection h with h1 h2
        exact ⟨h1, h2⟩

/-- For paths without `=`, a freshly built line is an entry for exactly its
own path: the prefix test for any other `=`-free path fails. -/
theorem prefix_mkPkgFileLine_iff {Q P : List Char} (F : List Char)
    (hQ : '=' ∉ Q) (hP : '=' ∉ P) :
    (pkgFilePrefix Q).isPrefixOf (mkPkgFileLine P F) = true ↔ Q = P := by
  rw [List.isPrefixOf_iff_prefix]
  unfold pkgFilePrefix mkPkgFileLine
  rw [List.append_assoc "packagefile ".data Q ['='],
    List.append_assoc "packagefile ".data P ['='],
    List.append_assoc ("packagefile ".data) (P ++ ['=']) F]
  rw [List.prefix_append_right_inj]
  exact eq_marker_prefix F hQ hP
theorem countPkgLines_append (l₁ l₂ : List (List Char)) (path : List Char) :
    countPkgLines (l₁ ++ l₂) path = countPkgLines l₁ path + countPkgLines l₂ path := by
  simp [countPkgLines, List.filter_append]

theorem countPkgLines_zero_of_not_any {lines : List (List Char)} {P : List Char}
    (h : lines.any (fun line => (pkgFilePrefix P).isPrefixOf line) = false) :
    countPkgLines lines P = 0 := by
  simp only [countPkgLines, List.length_eq_zero]
  rw [List.filter_eq_nil_iff]
  intro a ha
  simp only [List.any_eq_false] at h
  simpa using h a ha

theorem removePkgFile_sublist :
    ∀ (lines : List (List Char)) (pkgPath : List Char),
      ((removePkgFile lines pkgPath).1).Sublist lines := by
  intro lines pkgPath
  induction lines with
  | nil => simp [removePkgFile]
  | cons line rest ih =>
    simp only [removePkgFile]
    split_ifs with h
    · exact List.sublist_cons_self _ _
    · exact List.Sublist.cons₂ line ih

theorem countPkgLines_le_of_sublist {l₁ l₂ : List (List Char)} (path : List Char)
    (h : l₁.Sublist l₂) : countPkgLines l₁ path ≤ countPkgLines l₂ path :=
  List.Sublist.length_le (List.Sublist.filter _ h)

theorem countPkgLines_single (path pkgPath pkgFile : List Char)
    (hpath : '=' ∉ path) (hpkg : '=' ∉ pkgPath) :
    countPkgLines [mkPkgFileLine pkgPath pkgFile] path =
      if path = pkgPath then 1 else 0 := by
  simp only [countPkgLines, List.filter]
  rcases hpf : (pkgFilePrefix path).isPrefixOf (mkPkgFileLine pkgPath pkgFile) with _ | _
  · rw [if_neg]
    · simp
    · intro hc
      rw [(prefix_mkPkgFileLine_iff pkgFile hpath hpkg).symm] at hc
      simp [hc] at hpf
  · rw [if_pos ((prefix_mkPkgFileLine_iff pkgFile hpath hpkg).mp hpf)]
    simp

theorem countPkgLines_addPkgFile_le {lines : List (List Char)} {path : List Char}
    (pkgPath pkgFile : List Char) (hpath : '=' ∉ path) (hpkg : '=' ∉ pkgPath)
    (hinv : countPkgLines lines path ≤ 1) :
    countPkgLines (addPkgFile lines pkgPath pkgFile) path ≤ 1 := by
  unfold addPkgFile
  split_ifs with hany
  · exact hinv
  · rw [countPkgLines_append, countPkgLines_single path pkgPath pkgFile hpath hpkg]
    split_ifs with hqp
    · subst hqp
      rw [countPkgLines_zero_of_not_any (by simpa using hany)]
    · omega

theorem includePkg_ok_cases {lookup : List Char → Except String (List Char)}
    {lines : List (List Char)} {pkgPath : List Char} {lines' : List (List Char)}
    (h : includePkg lookup lines pkgPath = .ok lines') :
    lines' = lines ∨
      (lines.any (fun line => (pkgFilePrefix pkgPath).isPrefixOf line) = false ∧
        ∃ pkgFile, lines' = lines ++ [mkPkgFileLine pkgPath pkgFile]) := by
  unfold includePkg at h
  split_ifs at h with hany
  · cases h
    exact Or.inl rfl
  · rcases hl : lookup pkgPath with e | f <;> rw [hl] at h
    · exact Except.noConfusion h
    · cases h
      exact Or.inr ⟨by simpa using hany, f, rfl⟩

theorem countPkgLines_updateDimPkgsLoop_le
    {dimDep : List Char → List Char → Except String (List Char)}
    {dim : List Char} {replace : Bool} {path : List Char}
    (hpath : '=' ∉ path) (hdim : '=' ∉ dim) :
    ∀ (pkgs : List (List Char)) (lines lines' : List (List Char)),
      (∀ pk ∈ pkgs, '=' ∉ pk) →
      countPkgLines lines path ≤ 1 →
      updateDimPkgsLoop dimDep dim replace pkgs lines = .ok lines' →
      countPkgLines lines' path ≤ 1 := by
  intro pkgs
  induction pkgs with
  | nil =>
    intro lines lines' _ hinv h
    cases h
    exact hinv
  | cons pkg restPkgs ih =>
    intro lines lines' hfree hinv h
    simp only [updateDimPkgsLoop] at h
    rcases hd : dimDep pkg dim with e | pkgFile <;> rw [hd] at h
    · exact Except.noConfusion h
    · have hpkgfree : '=' ∉ pkg := hfree pkg (List.mem_cons_self _ _)
      have hdimpath : '=' ∉ DimensionPackagePath pkg dim := by
        intro hc
        unfold DimensionPackagePath at hc
        rcases List.mem_append.mp hc with hc | hc
        · rcases List.mem_append.mp hc with hc | hc
          · exact hpkgfree hc
          · simp at hc
        · exact hdim hc
      have hinv1 : countPkgLines (if replace then (removePkgFile lines pkg).1
          else lines) path ≤ 1 := by
        split_ifs
        · exact le_trans (countPkgLines_le_of_sublist path
            (removePkgFile_sublist lines pkg)) hinv
        · exact hinv
      exact ih _ lines' (fun pk hpk => hfree pk (List.mem_cons_of_mem _ hpk))
        (countPkgLines_addPkgFile_le _ pkgFile hpath hdimpath hinv1) h

theorem countPkgLines_updateDimPkgRefs_le
    {dimDep : List Char → List Char → Except String (List Char)}
    {replace : Bool} {path : List Char} (hpath : '=' ∉ path) :
    ∀ (refs : List (List Char × List (List Char))) (lines lines' : List (List Char)),
      (∀ dp ∈ refs, '=' ∉ dp.1 ∧ ∀ pk ∈ dp.2, '=' ∉ pk) →
      countPkgLines lines path ≤ 1 →
      updateDimPkgRefs dimDep replace refs lines = .ok lines' →
      countPkgLines lines' path ≤ 1 := by
  intro refs
  induction refs with
  | nil =>
    intro lines lines' _ hinv h
    cases h
    exact hinv
  | cons dp restRefs ih =>
    intro lines lines' hfree hinv h
    obtain ⟨dim, pkgs⟩ := dp
    simp only [updateDimPkgRefs] at h
    rcases hl : updateDimPkgsLoop dimDep dim replace pkgs lines with e | lines₁ <;>
      rw [hl] at h
    · exact Except.noConfusion h
    · have hd := hfree (dim, pkgs) (List.mem_cons_self _ _)
      exact ih lines₁ lines'
        (fun dp hdp => hfree dp (List.mem_cons_of_mem _ hdp))
        (countPkgLines_updateDimPkgsLoop_le hpath hd.1 pkgs lines lines₁
          hd.2 hinv hl) h

/-- **C8.** Starting from a manifest with at most one `packagefile <path>=`
entry for the given (marker-free) package path, each mutation operation of
the Import-Manifest Rewriter — `addPkgFile`, `removePkgFile`, `includePkg`
and `updateDimPkgRefs` in both replace and non-replace modes — leaves at most
one entry for that path.  (Package paths never contain `=`; the guard is
needed because the operations match entries by raw string prefix.) -/
theorem importCfg_at_most_one_per_path
    (lines : List (List Char)) (path : List Char) (hpath : '=' ∉ path)
    (hinv : countPkgLines lines path ≤ 1) :
    (∀ pkgPath pkgFile, '=' ∉ pkgPath →
      countPkgLines (addPkgFile lines pkgPath pkgFile) path ≤ 1) ∧
    (∀ pkgPath, countPkgLines (removePkgFile lines pkgPath).1 path ≤ 1) ∧
    (∀ lookup pkgPath lines', '=' ∉ pkgPath →
      includePkg lookup lines pkgPath = .ok lines' →
      countPkgLines lines' path ≤ 1) ∧
    (∀ dimDep replace refs lines',
      (∀ dp ∈ refs, '=' ∉ dp.1 ∧ ∀ pk ∈ dp.2, '=' ∉ pk) →
      updateDimPkgRefs dimDep replace refs lines = .ok lines' →
      countPkgLines lines' path ≤ 1) := by
  refine ⟨?_, ?_, ?_, ?_⟩
  · intro pkgPath pkgFile hpkg
    exact countPkgLines_addPkgFile_le pkgPath pkgFile hpath hpkg hinv
  · intro pkgPath
    exact le_trans (countPkgLines_le_of_sublist path
      (removePkgFile_sublist lines pkgPath)) hinv
  · intro lookup pkgPath lines' hpkg h
    rcases includePkg_ok_cases h with h | ⟨hany, pkgFile, h⟩
    · exact h ▸ hinv
    · rw [h, countPkgLines_append, countPkgLines_single path pkgPath pkgFile hpath hpkg]
      split_ifs with hqp
      · subst hqp
        rw [countPkgLines_zero_of_not_any hany]
      · omega
  · intro dimDep replace refs lines' hfree h
    exact countPkgLines_updateDimPkgRefs_le hpath refs lines lines' hfree hinv h
/-- Witness for `importCfg_at_most_one_per_path` on a one-line manifest and
path `a`. -/
theorem importCfg_at_most_one_per_path_witness :
    (∀ pkgPath pkgFile, '=' ∉ pkgPath →
      countPkgLines (addPkgFile ["packagefile a=f1".data] pkgPath pkgFile)
        "a".data ≤ 1) ∧
    (∀ pkgPath,
      countPkgLines (removePkgFile ["packagefile a=f1".data] pkgPath).1
        "a".data ≤ 1) ∧
    (∀ lookup pkgPath lines', '=' ∉ pkgPath →
      includePkg lookup ["packagefile a=f1".data] pkgPath = .ok lines' →
      countPkgLines lines' "a".data ≤ 1) ∧
    (∀ dimDep replace refs lines',
      (∀ dp ∈ refs, '=' ∉ dp.1 ∧ ∀ pk ∈ dp.2, '=' ∉ pk) →
      updateDimPkgRefs dimDep replace refs ["packagefile a=f1".data] = .ok lines' →
      countPkgLines lines' "a".data ≤ 1) :=
  importCfg_at_most_one_per_path ["packagefile a=f1".data] "a".data
    (by decide) (by decide)

end Superpose

namespace Superpose

/-! ### The link phase (`src/superpose.go`, `onLink`)

`onLink` loads the link `importcfg`, walks its `packagefile` lines (skipping
the special `.test` package), asks every configured transformer whether its
dimension applies to the entry's package, and for an applying pair loads the
pair's cached metadata, includes its dependent packages in the manifest and
records the `(dimension, package)` reference.  When any reference was
collected, the dimension-qualified entries are added via
`updateDimPkgRefs(refs, false)` — never removing an original entry — and the
file is rewritten; otherwise the function returns without touching the file.
The walk iterates the *loaded* line list; `includePkg` appends to the
working copy, which is threaded separately (`cur`).  External collaborators:
`applies` (the transformer), `metadata` (the cached
`IncludeDependentPackages` for a pair, via the pair's action ID), `lookup`
(`go list -export`), `dimDep` (`dimDepPkgFile`).  A `packagefile` line
without `=` would make the Go code panic while slicing; the model reads the
whole remainder as the path. -/

/-- `dimPkgRefs.addRef`: record a `(dimension, package)` pair once. -/
def dimRefsAddRef (refs : List (List Char × List Char)) (dim pkg : List Char) :
    List (List Char × List Char) :=
  if refs.any (fun r => r.1 == dim && r.2 == pkg) then refs else refs ++ [(dim, pkg)]

/-- Include each dependent package of a pair's metadata in the manifest. -/
def includePkgs (lookup : List Char → Except String (List Char)) :
    List (List Char) → List (List Char) → Except String (List (List Char))
  | [], lines => .ok lines
  | d :: ds, lines =>
    match includePkg lookup lines d with
    | .error e => .error e
    | .ok lines' => includePkgs lookup ds lines'

/-- The per-entry dimension loop of `onLink`. -/
def onLinkDims (applies : List Char → List Char → Except String Bool)
    (metadata : List Char → List Char → Except String (List (List Char)))
    (lookup : List Char → Except String (List Char)) (pkgPath : List Char) :
    List (List Char) → List (List Char) → List (List Char × List Char) →
    Except String (List (List Char) × List (List Char × List Char))
  | [], cur, refs => .ok (cur, refs)
  | dim :: restDims, cur, refs =>
    match applies dim pkgPath with
    | .error e => .error e
    | .ok false => onLinkDims applies metadata lookup pkgPath restDims cur refs
    | .ok true =>
      match metadata pkgPath dim with
      | .error e => .error e
      | .ok deps =>
        let refs' := dimRefsAddRef refs dim pkgPath
        match includePkgs lookup deps cur with
        | .error e => .error e
        | .ok cur' => onLinkDims applies metadata lookup pkgPath restDims cur' refs'

/-- The package path parsed out of a `packagefile` line
(`TrimPrefix(line[:Index(line, "=")], "packagefile ")`). -/
def linePkgPath (line : List Char) : List Char :=
  (line.drop 12).takeWhile (fun c => c ≠ '=')

/-- The line walk of `onLink` over the loaded manifest. -/
def onLinkWalk (dims : List (List Char))
    (applies : List Char → List Char → Except String Bool)
    (metadata : List Char → List Char → Except String (List (List Char)))
    (lookup : List Char → Except String (List Char)) :
    List (List Char) → List (List Char) → List (List Char × List Char) →
    Except String (List (List Char) × List (List Char × List Char))
  | [], cur, refs => .ok (cur, refs)
  | line :: restLines, cur, refs =>
    if ("packagefile ".data).isPrefixOf line then
      if (".test".data).isSuffixOf (linePkgPath line) then
        onLinkWalk dims applies metadata lookup restLines cur refs
      else
        match onLinkDims applies metadata lookup (linePkgPath line) dims cur refs with
        | .error e => .error e
        | .ok (cur', refs') => onLinkWalk dims applies metadata lookup restLines cur' refs'
    else onLinkWalk dims applies metadata lookup restLines cur refs

/-- `onLink`: walk the manifest; with no collected reference return without
writing (`none`); otherwise add the dimension-qualified entries
(`replace = false`) and write the new line list (`some`). -/
def onLink (dims : List (List Char))
    (applies : List Char → List Char → Except String Bool)
    (metadata : List Char → List Char → Except String (List (List Char)))
    (lookup : List Char → Except String (List Char))
    (dimDep : List Char → List Char → Except String (List Char))
    (lines : List (List Char)) : Except String (Option (List (List Char))) :=
  match onLinkWalk dims applies metadata lookup lines lines [] with
  | .error e => .error e
  | .ok (cur, refs) =>
    if refs.isEmpty then .ok none
    else
      match updateDimPkgRefs dimDep false (refs.map (fun r => (r.1, [r.2]))) cur with
      | .error e => .error e
      | .ok newLines => .ok (some newLines)

theorem addPkgFile_extends (lines : List (List Char)) (pkgPath pkgFile : List Char) :
    lines <+: addPkgFile lines pkgPath pkgFile := by
  unfold addPkgFile
  split_ifs
  · exact List.prefix_refl _
  · exact List.prefix_append _ _

theorem includePkg_extends {lookup : List Char → Except String (List Char)}
    {lines lines' : List (List Char)} {pkgPath : List Char}
    (h : includePkg lookup lines pkgPath = .ok lines') : lines <+: lines' := by
  rcases includePkg_ok_cases h with h | ⟨_, pkgFile, h⟩
  · exact h ▸ List.prefix_refl _
  · exact h ▸ List.prefix_append _ _

theorem includePkgs_extends {lookup : List Char → Except String (List Char)} :
    ∀ {deps : List (List Char)} {lines lines' : List (List Char)},
      includePkgs lookup deps lines = .ok lines' → lines <+: lines' := by
  intro deps
  induction deps with
  | nil =>
    intro lines lines' h
    cases h
    exact List.prefix_refl _
  | cons d ds ih =>
    intro lines lines' h
    simp only [includePkgs] at h
    rcases h1 : includePkg lookup lines d with e | l₁ <;> rw [h1] at h
    · exact Except.noConfusion h
    · exact (includePkg_extends h1).trans (ih h)

theorem onLinkDims_extends {applies : List Char → List Char → Except String Bool}
    {metadata : List Char → List Char → Except String (List (List Char))}
    {lookup : List Char → Except String (List Char)} {pkgPath : List Char} :
    ∀ {dims : List (List Char)} {cur refs cur' refs'},
      onLinkDims applies metadata lookup pkgPath dims cur refs = .ok (cur', refs') →
      cur <+: cur' := by
  intro dims
  induction dims with
  | nil =>
    intro cur refs cur' refs' h
    cases h
    exact List.prefix_refl _
  | cons dim restDims ih =>
    intro cur refs cur' refs' h
    simp only [onLinkDims] at h
    rcases h1 : applies dim pkgPath with e | b <;> rw [h1] at h
    · exact Except.noConfusion h
    · rcases b with _ | _
      · exact ih h
      · rcases h2 : metadata pkgPath dim with e | deps <;> rw [h2] at h
        · exact Except.noConfusion h
        · dsimp only at h
          rcases h3 : includePkgs lookup deps cur with e | cur₁ <;> rw [h3] at h
          · exact Except.noConfusion h
          · exact (includePkgs_extends h3).trans (ih h)

theorem onLinkWalk_extends {dims : List (List Char)}
    {applies : List Char → List Char → Except String Bool}
    {metadata : List Char → List Char → Except String (List (List Char))}
    {lookup : List Char → Except String (List Char)} :
    ∀ {walkLines : List (List Char)} {cur refs cur' refs'},
      onLinkWalk dims applies metadata lookup walkLines cur refs = .ok (cur', refs') →
      cur <+: cur' := by
  intro walkLines
  induction walkLines with
  | nil =>
    intro cur refs cur' refs' h
    cases h
    exact List.prefix_refl _
  | cons line restLines ih =>
    intro cur refs cur' refs' h
    simp only [onLinkWalk] at h
    split_ifs at h
    · exact ih h
    · rcases h1 : onLinkDims applies metadata lookup (linePkgPath line) dims cur refs
        with e | p <;> rw [h1] at h
      · exact Except.noConfusion h
      · exact (onLinkDims_extends h1).trans (ih h)
    · exact ih h

theorem updateDimPkgsLoop_extends
    {dimDep : List Char → List Char → Except String (List Char)} {dim : List Char} :
    ∀ {pkgs : List (List Char)} {lines lines' : List (List Char)},
      updateDimPkgsLoop dimDep dim false pkgs lines = .ok lines' →
      lines <+: lines' := by
  intro pkgs
  induction pkgs with
  | nil =>
    intro lines lines' h
    cases h
    exact List.prefix_refl _
  | cons pkg restPkgs ih =>
    intro lines lines' h
    simp only [updateDimPkgsLoop] at h
    rcases h1 : dimDep pkg dim with e | pkgFile <;> rw [h1] at h
    · exact Except.noConfusion h
    · simp only [if_false, Bool.false_eq_true] at h
      exact (addPkgFile_extends lines _ pkgFile).trans (ih h)

theorem updateDimPkgRefs_extends
    {dimDep : List Char → List Char → Except String (List Char)} :
    ∀ {refs : List (List Char × List (List Char))} {lines lines' : List (List Char)},
      updateDimPkgRefs dimDep false refs lines = .ok lines' →
      lines <+: lines' := by
  intro refs
  induction refs with
  | nil =>
    intro lines lines' h
    cases h
    exact List.prefix_refl _
  | cons dp restRefs ih =>
    intro lines lines' h
    obtain ⟨dim, pkgs⟩ := dp
    simp only [updateDimPkgRefs] at h
    rcases h1 : updateDimPkgsLoop dimDep dim false pkgs lines with e | lines₁ <;>
      rw [h1] at h
    · exact Except.noConfusion h
    · exact (updateDimPkgsLoop_extends h1).trans (ih h)

theorem onLinkDims_no_applies
    {applies : List Char → List Char → Except String Bool}
    {metadata : List Char → List Char → Except String (List (List Char))}
    {lookup : List Char → Except String (List Char)} {pkgPath : List Char} :
    ∀ {dims : List (List Char)} (cur : List (List Char))
      (refs : List (List Char × List Char)),
      (∀ dim ∈ dims, applies dim pkgPath = .ok false) →
      onLinkDims applies metadata lookup pkgPath dims cur refs = .ok (cur, refs) := by
  intro dims
  induction dims with
  | nil =>
    intro cur refs _
    rfl
  | cons dim restDims ih =>
    intro cur refs hall
    simp only [onLinkDims, hall dim (List.mem_cons_self _ _)]
    exact ih cur refs (fun d hd => hall d (List.mem_cons_of_mem _ hd))

theorem onLinkWalk_no_applies {dims : List (List Char)}
    {applies : List Char → List Char → Except String Bool}
    {metadata : List Char → List Char → Except String (List (List Char))}
    {lookup : List Char → Except String (List Char)} :
    ∀ {walkLines : List (List Char)} (cur : List (List Char))
      (refs : List (List Char × List Char)),
      (∀ line ∈ walkLines, ("packagefile ".data).isPrefixOf line = true →
        (".test".data).isSuffixOf (linePkgPath line) = false →
        ∀ dim ∈ dims, applies dim (linePkgPath line) = .ok false) →
      onLinkWalk dims applies metadata lookup walkLines cur refs = .ok (cur, refs) := by
  intro walkLines
  induction walkLines with
  | nil =>
    intro cur refs _
    rfl
  | cons line restLines ih =>
    intro cur refs hall
    simp only [onLinkWalk]
    have hrest : ∀ l ∈ restLines, ("packagefile ".data).isPrefixOf l = true →
        (".test".data).isSuffixOf (linePkgPath l) = false →
        ∀ dim ∈ dims, applies dim (linePkgPath l) = .ok false :=
      fun l hl => hall l (List.mem_cons_of_mem _ hl)
    split_ifs with h1 h2
    · exact ih cur refs hrest
    · rw [onLinkDims_no_applies cur refs
        (hall line (List.mem_cons_self _ _) h1 (Bool.eq_false_iff.mpr h2))]
      exact ih cur refs hrest
    · exact ih cur refs hrest

/-- **C9.** During the link phase the engine never removes an entry from
the manifest: a successful rewrite's line list extends the loaded one
(dimension-qualified entries and metadata-declared dependency packages are
only appended, since `updateDimPkgRefs` is called with `removeOriginal`
false); and when no dimension applies to any (non-`.test`) `packagefile`
entry, no reference is collected, so `onLink` returns without producing a
rewrite — the manifest file stays byte-for-byte untouched and the argument
vector is forwarded unmodified (the link path of `RunMain` never alters
`args`). -/
theorem onLink_appends_only (dims : List (List Char))
    (applies : List Char → List Char → Except String Bool)
    (metadata : List Char → List Char → Except String (List (List Char)))
    (lookup : List Char → Except String (List Char))
    (dimDep : List Char → List Char → Except String (List Char))
    (lines : List (List Char)) :
    (∀ newLines, onLink dims applies metadata lookup dimDep lines = .ok (some newLines) →
      lines <+: newLines) ∧
    ((∀ line ∈ lines, ("packagefile ".data).isPrefixOf line = true →
        (".test".data).isSuffixOf (linePkgPath line) = false →
        ∀ dim ∈ dims, applies dim (linePkgPath line) = .ok false) →
      onLink dims applies metadata lookup dimDep lines = .ok none) := by
  constructor
  · intro newLines h
    unfold onLink at h
    rcases h1 : onLinkWalk dims applies metadata lookup lines lines [] with e | p <;>
      rw [h1] at h
    · exact Except.noConfusion h
    · obtain ⟨cur, refs⟩ := p
      dsimp only at h
      split_ifs at h with hempty
      · cases h
      · rcases h2 : updateDimPkgRefs dimDep false (refs.map (fun r => (r.1, [r.2]))) cur
          with e | nl <;> rw [h2] at h
        · exact Except.noConfusion h
        · cases h
          exact (onLinkWalk_extends h1).trans (updateDimPkgRefs_extends h2)
  · intro hall
    unfold onLink
    rw [onLinkWalk_no_applies lines [] hall]
    rfl

end Superpose
